import Mathlib

/-!
Shallow embedding of the changelog synthesis and version-ledger engine of
`release-it-preset` (the TypeScript sources under `src/scripts/`), together
with theorems settling the frozen claims about it.

Strings are modelled as Lean `String`s; the core text algorithms are stated
on `List Char` (`String.data`).  Every JavaScript regular expression used by
the source is embedded as a deterministic matcher that follows the regex
engine's backtracking behaviour for that concrete pattern; comments on each
matcher name the pattern it embeds.
-/

/-- The JavaScript whitespace class matched by the regex escape for white
space (space, tab, line terminators, and the Unicode space characters). -/
def isJsWs (c : Char) : Bool :=
  c.toNat = 32 || c.toNat = 9 || c.toNat = 10 || c.toNat = 13 || c.toNat = 11 ||
  c.toNat = 12 || c.toNat = 0xa0 || c.toNat = 0x1680 ||
  (0x2000 ≤ c.toNat && c.toNat ≤ 0x200a) || c.toNat = 0x2028 || c.toNat = 0x2029 ||
  c.toNat = 0x202f || c.toNat = 0x205f || c.toNat = 0x3000 || c.toNat = 0xfeff

/-- Drop JS whitespace from the front of a character list. -/
def jsTrimL (cs : List Char) : List Char := cs.dropWhile isJsWs

/-- Drop JS whitespace from the back of a character list. -/
def jsTrimR (cs : List Char) : List Char := (cs.reverse.dropWhile isJsWs).reverse

/-- Embedding of the JavaScript string `trim()` method. -/
def jsTrimList (cs : List Char) : List Char := jsTrimR (jsTrimL cs)

/-- String-level `trim()`. -/
def jsTrim (s : String) : String := ⟨jsTrimList s.data⟩

/-- Whether `pat` occurs at the very start of `cs`. -/
def listStarts (cs pat : List Char) : Bool :=
  match pat, cs with
  | [], _ => true
  | _ :: _, [] => false
  | p :: ps, c :: t => c = p && listStarts t ps

/-- Whether `pat` occurs anywhere inside `cs` (substring test). -/
def containsSub (cs pat : List Char) : Bool :=
  match cs with
  | [] => listStarts [] pat
  | _ :: t => listStarts cs pat || containsSub t pat

/-- ASCII lower-casing of one character (the only case folding the embedded
code needs; every table key and label in the source is ASCII). -/
def asciiLower (c : Char) : Char :=
  if 'A' ≤ c && c ≤ 'Z' then Char.ofNat (c.toNat + 32) else c

/-- ASCII lower-casing of a character list. -/
def lowerList (cs : List Char) : List Char := cs.map asciiLower

/-- Case-insensitive variant of `listStarts`. -/
def listStartsCI (cs pat : List Char) : Bool :=
  listStarts (lowerList cs) (lowerList pat)

/-- Case-insensitive substring test (used for the `[skip-changelog]` marker
and the case-insensitive heading searches). -/
def containsSubCI (cs pat : List Char) : Bool :=
  containsSub (lowerList cs) (lowerList pat)

/-- String-level substring test. -/
def strContains (s pat : String) : Bool := containsSub s.data pat.data

/-- Split a character list at every occurrence of `c` (the JS
`split(c)` for a one-character separator). -/
def splitOnChar (c : Char) : List Char → List (List Char)
  | [] => [[]]
  | x :: t =>
    if x = c then [] :: splitOnChar c t
    else
      match splitOnChar c t with
      | [] => [[x]]
      | l :: ls => (x :: l) :: ls

/-- Split on the JS regex of an optional carriage return followed by a line
feed, as used by `updateReferenceLinks` (`changelog.split(/\r?\n/)`). -/
def splitJsLines : List Char → List (List Char)
  | [] => [[]]
  | '\r' :: '\n' :: t => [] :: splitJsLines t
  | '\n' :: t => [] :: splitJsLines t
  | c :: t =>
    match splitJsLines t with
    | [] => [[c]]
    | l :: ls => (c :: l) :: ls

/-- Join lines with a line feed (the JS `join('\n')`). -/
def joinLines : List (List Char) → List Char
  | [] => []
  | [l] => l
  | l :: ls => l ++ '\n' :: joinLines ls

theorem joinLines_cons_of_ne (l : List Char) {ls : List (List Char)} (h : ls ≠ []) :
    joinLines (l :: ls) = l ++ '\n' :: joinLines ls := by
  cases ls with
  | nil => exact absurd rfl h
  | cons a b => rfl

/- ### Semantic-version utilities (src/scripts/lib/semver-utils.ts) -/

/-- The regex digit class. -/
def isDigitChar (c : Char) : Bool := '0' ≤ c && c ≤ '9'

/-- The character class of semver prerelease/build identifiers
(`[0-9A-Za-z-]`). -/
def isIdentChar (c : Char) : Bool :=
  isDigitChar c || ('A' ≤ c && c ≤ 'Z') || ('a' ≤ c && c ≤ 'z') || c = '-'

/-- Run of one or more digits followed by the continuation `k`
(the `\d+` pieces of the semver regex; `seen` records whether at least one
digit has been consumed). -/
def digitsThen (k : List Char → Bool) : Bool → List Char → Bool
  | seen, [] => seen && k []
  | seen, c :: t => if isDigitChar c then digitsThen k true t else seen && k (c :: t)

/-- Dot-separated nonempty identifier runs followed by the continuation `k`
(the `[0-9A-Za-z-]+(?:\.[0-9A-Za-z-]+)*` pieces of the semver regex). -/
def identsThen (k : List Char → Bool) : Bool → List Char → Bool
  | seen, [] => seen && k []
  | seen, c :: t =>
    if isIdentChar c then identsThen k true t
    else if c = '.' then seen && identsThen k false t
    else seen && k (c :: t)

/-- The optional `+buildmetadata` suffix, anchored at the end. -/
def buildTail : List Char → Bool
  | [] => true
  | c :: t => if c = '+' then identsThen (fun r => r.isEmpty) false t else false

/-- The optional `-prerelease` suffix followed by the optional build suffix,
anchored at the end. -/
def preTail : List Char → Bool
  | [] => true
  | c :: t => if c = '-' then identsThen buildTail false t else buildTail (c :: t)

/-- Continuation after the minor number: requires a dot then the patch
number then the optional suffixes. -/
def dot2Tail : List Char → Bool
  | [] => false
  | c :: t => if c = '.' then digitsThen preTail false t else false

/-- Continuation after the major number: requires a dot then the minor
number then `dot2Tail`. -/
def dot1Tail : List Char → Bool
  | [] => false
  | c :: t => if c = '.' then digitsThen dot2Tail false t else false

/-- The semver regex body after the optional leading `v`. -/
def semverCore (cs : List Char) : Bool := digitsThen dot1Tail false cs

/-- Strip one leading lowercase `v` (the JS `replace(/^v/, '')`). -/
def stripVList : List Char → List Char
  | [] => []
  | c :: t => if c = 'v' then t else c :: t

/-- Embedding of the anchored semver regex of `isValidSemver`:
an optional leading `v`, three dot-separated digit runs, an optional
`-prerelease` and an optional `+buildmetadata` suffix. -/
def semverOK (cs : List Char) : Bool :=
  semverCore (if cs.head? = some 'v' then cs.tail else cs)

/-- Embedding of `isValidSemver` from src/scripts/lib/semver-utils.ts. -/
def isValidSemver (version : String) : Bool := semverOK version.data

/-- The JS `version.replace(/^v/, '')`: strip one leading lowercase `v`. -/
def stripLeadV (s : String) : String := ⟨stripVList s.data⟩

/-- The error message thrown by `validateAndNormalizeSemver`. -/
def semverErrMsg (version : String) : String :=
  "Invalid semantic version: \"" ++ version ++
    "\". Expected format: [v]MAJOR.MINOR.PATCH[-prerelease][+buildmetadata]"

/-- Embedding of `validateAndNormalizeSemver` from
src/scripts/lib/semver-utils.ts; a thrown error is an `Except.error`. -/
def validateAndNormalizeSemver (version : String) : Except String String :=
  if isValidSemver version then Except.ok (stripLeadV version)
  else Except.error (semverErrMsg version)

/- ### Helper lemmas for run-based matchers -/

theorem listStarts_nil (cs : List Char) : listStarts cs [] = true := by
  cases cs <;> simp [listStarts]

theorem listStarts_self_append (x b : List Char) : listStarts (x ++ b) x = true := by
  induction x with
  | nil => simp [listStarts_nil]
  | cons c t ih => simp [listStarts, ih]

theorem containsSub_middle : ∀ (a x b : List Char), containsSub (a ++ (x ++ b)) x = true
  | [], x, b => by
    cases x with
    | nil => cases b <;> simp [containsSub, listStarts_nil]
    | cons c t =>
      simp only [List.nil_append, List.cons_append, containsSub, Bool.or_eq_true]
      exact Or.inl (by simpa using listStarts_self_append (c :: t) b)
  | c :: a', x, b => by
    simp only [List.cons_append, containsSub, Bool.or_eq_true]
    exact Or.inr (containsSub_middle a' x b)

theorem takeWhile_mem_pred {p : Char → Bool} : ∀ {l : List Char} {c : Char},
    c ∈ l.takeWhile p → p c = true := by
  intro l
  induction l with
  | nil => intro c h; simp [List.takeWhile] at h
  | cons x t ih =>
    intro c h
    by_cases hx : p x
    · rw [List.takeWhile_cons_of_pos hx] at h
      rcases List.mem_cons.mp h with rfl | h'
      · exact hx
      · exact ih h'
    · rw [List.takeWhile_cons_of_neg hx] at h
      simp at h

theorem takeWhile_append_stop {p : Char → Bool} {l1 l2 : List Char}
    (h1 : ∀ c ∈ l1, p c = true) (h2 : ∀ c, l2.head? = some c → p c = false) :
    (l1 ++ l2).takeWhile p = l1 := by
  induction l1 with
  | nil =>
    cases l2 with
    | nil => rfl
    | cons c t =>
      have hc : ¬ p c = true := by simp [h2 c rfl]
      simp [List.takeWhile_cons_of_neg hc]
  | cons x t ih =>
    have hx : p x = true := h1 x (by simp)
    simp only [List.cons_append, List.takeWhile_cons_of_pos hx]
    rw [ih (fun c hc => h1 c (by simp [hc]))]

theorem dropWhile_append_stop {p : Char → Bool} {l1 l2 : List Char}
    (h1 : ∀ c ∈ l1, p c = true) (h2 : ∀ c, l2.head? = some c → p c = false) :
    (l1 ++ l2).dropWhile p = l2 := by
  induction l1 with
  | nil =>
    cases l2 with
    | nil => rfl
    | cons c t =>
      have hc : ¬ p c = true := by simp [h2 c rfl]
      simp [List.dropWhile_cons_of_neg hc]
  | cons x t ih =>
    have hx : p x = true := h1 x (by simp)
    simp only [List.cons_append, List.dropWhile_cons_of_pos hx]
    exact ih (fun c hc => h1 c (by simp [hc]))

theorem digitsThen_eq (k : List Char → Bool) : ∀ (seen : Bool) (cs : List Char),
    digitsThen k seen cs =
      ((seen || !(cs.takeWhile isDigitChar).isEmpty) && k (cs.dropWhile isDigitChar)) := by
  intro seen cs
  induction cs generalizing seen with
  | nil => simp [digitsThen, List.takeWhile, List.dropWhile]
  | cons c t ih =>
    by_cases hc : isDigitChar c
    · simp [digitsThen, hc, ih true, List.takeWhile_cons_of_pos hc,
        List.dropWhile_cons_of_pos hc]
    · simp [digitsThen, hc, List.takeWhile_cons_of_neg (by simpa using hc),
        List.dropWhile_cons_of_neg (by simpa using hc)]

theorem identsThen_step (k : List Char → Bool) : ∀ (seen : Bool) (cs : List Char),
    identsThen k seen cs =
      ((seen || !(cs.takeWhile isIdentChar).isEmpty) &&
        (if (cs.dropWhile isIdentChar).head? = some '.' then
          identsThen k false (cs.dropWhile isIdentChar).tail
        else k (cs.dropWhile isIdentChar))) := by
  intro seen cs
  induction cs generalizing seen with
  | nil => simp [identsThen, List.takeWhile, List.dropWhile]
  | cons c t ih =>
    by_cases hc : isIdentChar c
    · simp [identsThen, hc, ih true, List.takeWhile_cons_of_pos hc,
        List.dropWhile_cons_of_pos hc]
    · by_cases hdot : c = '.'
      · subst hdot
        simp [identsThen, hc, List.takeWhile_cons_of_neg (by simpa using hc),
          List.dropWhile_cons_of_neg (by simpa using hc)]
      · simp [identsThen, hc, hdot, List.takeWhile_cons_of_neg (by simpa using hc),
          List.dropWhile_cons_of_neg (by simpa using hc)]

theorem dropWhile_head_not {p : Char → Bool} : ∀ (l : List Char) (c : Char),
    (l.dropWhile p).head? = some c → p c = false := by
  intro l
  induction l with
  | nil => intro c h; simp at h
  | cons x t ih =>
    intro c h
    by_cases hx : p x
    · rw [List.dropWhile_cons_of_pos hx] at h
      exact ih c h
    · rw [List.dropWhile_cons_of_neg hx] at h
      simp at h
      subst h
      simpa using hx

/-- Join a list of identifier chunks with single dots (used to state the
claim's description of the semver prerelease/build grammar). -/
def dotJoin : List (List Char) → List Char
  | [] => []
  | [p] => p
  | p :: ps => p ++ '.' :: dotJoin ps

theorem dotJoin_cons_of_ne (p : List Char) {ps : List (List Char)} (h : ps ≠ []) :
    dotJoin (p :: ps) = p ++ '.' :: dotJoin ps := by
  cases ps with
  | nil => exact absurd rfl h
  | cons q qs => rfl

/-- Shape of a dot-separated list of nonempty alphanumeric-or-hyphen
identifier chunks, from the claim's description of the semver grammar. -/
def IdentsShape (ps : List (List Char)) : Prop :=
  ps ≠ [] ∧ ∀ p ∈ ps, p ≠ [] ∧ ∀ c ∈ p, isIdentChar c = true

theorem identsThen_true_iff (k : List Char → Bool) (cs : List Char) :
    identsThen k false cs = true ↔
      ∃ ps rest, IdentsShape ps ∧ cs = dotJoin ps ++ rest ∧
        (∀ c, rest.head? = some c → (isIdentChar c = false ∧ c ≠ '.')) ∧
        k rest = true := by
  have main : ∀ n (cs : List Char), cs.length ≤ n →
      (identsThen k false cs = true ↔
        ∃ ps rest, IdentsShape ps ∧ cs = dotJoin ps ++ rest ∧
          (∀ c, rest.head? = some c → (isIdentChar c = false ∧ c ≠ '.')) ∧
          k rest = true) := by
    intro n
    induction n with
    | zero =>
      intro cs hlen
      have hcs : cs = [] := List.length_eq_zero.mp (Nat.le_zero.mp hlen)
      subst hcs
      refine iff_of_false (by simp [identsThen]) ?_
      rintro ⟨ps, rest, ⟨hne, hall⟩, heq, -, -⟩
      cases ps with
      | nil => exact hne rfl
      | cons p ps' =>
        rcases hall p (by simp) with ⟨hpne, -⟩
        cases p with
        | nil => exact hpne rfl
        | cons c q =>
          cases ps' with
          | nil => simp [dotJoin] at heq
          | cons p2 ps2 => rw [dotJoin_cons_of_ne _ (by simp)] at heq; simp at heq
    | succ n ih =>
      intro cs hlen
      rw [identsThen_step]
      have hsplit : cs.takeWhile isIdentChar ++ cs.dropWhile isIdentChar = cs :=
        List.takeWhile_append_dropWhile _ _
      have hrmem : ∀ c ∈ cs.takeWhile isIdentChar, isIdentChar c = true :=
        fun c hc => takeWhile_mem_pred hc
      by_cases hrnil : cs.takeWhile isIdentChar = []
      · rw [hrnil]
        refine iff_of_false (by simp) ?_
        rintro ⟨ps, rest, ⟨hne, hall⟩, heq, -, -⟩
        cases ps with
        | nil => exact hne rfl
        | cons p ps' =>
          rcases hall p (by simp) with ⟨hpne, hpid⟩
          cases p with
          | nil => exact hpne rfl
          | cons c q =>
            have hcid : isIdentChar c = true := hpid c (by simp)
            have hhead : ∃ t, cs = c :: t := by
              cases ps' with
              | nil => exact ⟨q ++ rest, by simpa [dotJoin] using heq⟩
              | cons p2 ps2 =>
                rw [dotJoin_cons_of_ne _ (by simp)] at heq
                exact ⟨q ++ '.' :: dotJoin (p2 :: ps2) ++ rest, by simpa using heq⟩
            obtain ⟨t, rfl⟩ := hhead
            rw [List.takeWhile_cons_of_pos hcid] at hrnil
            simp at hrnil
      · have hrpos : 1 ≤ (cs.takeWhile isIdentChar).length :=
          Nat.one_le_iff_ne_zero.mpr (fun h => hrnil (List.length_eq_zero.mp h))
        have hEmpty : (cs.takeWhile isIdentChar).isEmpty = false := by
          cases hx : cs.takeWhile isIdentChar with
          | nil => exact absurd hx hrnil
          | cons a b => simp
        rw [hEmpty]
        simp only [Bool.not_false, Bool.or_true, Bool.true_and]
        by_cases hdot : (cs.dropWhile isIdentChar).head? = some '.'
        · rw [if_pos hdot]
          obtain ⟨t, ht⟩ : ∃ t, cs.dropWhile isIdentChar = '.' :: t := by
            cases hx : cs.dropWhile isIdentChar with
            | nil => rw [hx] at hdot; simp at hdot
            | cons a b =>
              rw [hx] at hdot
              simp at hdot
              exact ⟨b, by rw [hdot]⟩
          rw [ht]
          simp only [List.tail_cons]
          have hlent : t.length ≤ n := by
            have h1 : cs.length = (cs.takeWhile isIdentChar).length +
                (cs.dropWhile isIdentChar).length := by
              conv_lhs => rw [← hsplit]
              exact List.length_append _ _
            rw [ht] at h1
            simp at h1
            omega
          rw [ih t hlent]
          constructor
          · rintro ⟨ps', rest, ⟨hne', hall'⟩, heqt, hresthead, hk⟩
            refine ⟨cs.takeWhile isIdentChar :: ps', rest, ⟨by simp, ?_⟩, ?_, hresthead, hk⟩
            · intro p hp
              rcases List.mem_cons.mp hp with rfl | hp'
              · exact ⟨hrnil, hrmem⟩
              · exact hall' p hp'
            · rw [dotJoin_cons_of_ne _ hne']
              conv_lhs => rw [← hsplit]
              rw [ht, heqt]
              simp
          · rintro ⟨ps, rest, ⟨hne, hall⟩, heq, hresthead, hk⟩
            cases ps with
            | nil => exact absurd rfl hne
            | cons p1 ps'' =>
              rcases hall p1 (by simp) with ⟨hp1ne, hp1id⟩
              cases ps'' with
              | nil =>
                -- a single chunk: then the dropped rest cannot start with a dot
                simp only [dotJoin] at heq
                have hrest0 : cs.dropWhile isIdentChar = rest := by
                  rw [heq]
                  exact dropWhile_append_stop hp1id
                    (fun c hc => (hresthead c hc).1)
                rw [hrest0] at hdot
                rcases hresthead '.' (by rw [← hdot]) with ⟨-, habs⟩
                exact absurd rfl habs
              | cons p2 ps2 =>
                rw [dotJoin_cons_of_ne _ (by simp)] at heq
                have hstops : ∀ c, ('.' :: (dotJoin (p2 :: ps2) ++ rest)).head? = some c →
                    isIdentChar c = false := by
                  intro c hc
                  simp at hc
                  subst hc
                  decide
                have htake : cs.takeWhile isIdentChar = p1 := by
                  conv_lhs => rw [heq]
                  rw [List.append_assoc, List.cons_append] at heq ⊢
                  exact takeWhile_append_stop hp1id (by
                    intro c hc
                    simp at hc
                    rw [← hc]
                    decide)
                have hdrop : cs.dropWhile isIdentChar = '.' :: (dotJoin (p2 :: ps2) ++ rest) := by
                  conv_lhs => rw [heq]
                  rw [List.append_assoc, List.cons_append]
                  exact dropWhile_append_stop hp1id (by
                    intro c hc
                    simp at hc
                    rw [← hc]
                    decide)
                rw [ht] at hdrop
                have ht' : t = dotJoin (p2 :: ps2) ++ rest := by
                  injection hdrop
                refine ⟨p2 :: ps2, rest, ⟨by simp, ?_⟩, ht', hresthead, hk⟩
                intro p hp
                exact hall p (by simp [List.mem_cons] at hp ⊢; tauto)
        · rw [if_neg hdot]
          constructor
          · intro hk
            refine ⟨[cs.takeWhile isIdentChar], cs.dropWhile isIdentChar,
              ⟨by simp, ?_⟩, by rw [dotJoin, hsplit], ?_, hk⟩
            · intro p hp
              simp at hp
              subst hp
              exact ⟨hrnil, hrmem⟩
            · intro c hc
              refine ⟨dropWhile_head_not _ _ hc, ?_⟩
              intro hceq
              subst hceq
              exact hdot hc
          · rintro ⟨ps, rest, ⟨hne, hall⟩, heq, hresthead, hk⟩
            cases ps with
            | nil => exact absurd rfl hne
            | cons p1 ps'' =>
              rcases hall p1 (by simp) with ⟨hp1ne, hp1id⟩
              cases ps'' with
              | nil =>
                simp only [dotJoin] at heq
                have hrest0 : cs.dropWhile isIdentChar = rest := by
                  rw [heq]
                  exact dropWhile_append_stop hp1id (fun c hc => (hresthead c hc).1)
                rw [hrest0]
                exact hk
              | cons p2 ps2 =>
                rw [dotJoin_cons_of_ne _ (by simp)] at heq
                have hdrop : cs.dropWhile isIdentChar = '.' :: (dotJoin (p2 :: ps2) ++ rest) := by
                  conv_lhs => rw [heq]
                  rw [List.append_assoc, List.cons_append]
                  exact dropWhile_append_stop hp1id (by
                    intro c hc
                    simp at hc
                    rw [← hc]
                    decide)
                rw [hdrop] at hdot
                simp at hdot
  exact main cs.length cs le_rfl

/-- A chunk of digit characters. -/
def AllDigits (d : List Char) : Prop := d ≠ [] ∧ ∀ c ∈ d, isDigitChar c = true

/-- The claim's description of the optional `-prerelease` suffix. -/
def PreShape (pre : List Char) : Prop :=
  pre = [] ∨ ∃ ps, IdentsShape ps ∧ pre = '-' :: dotJoin ps

/-- The claim's description of the optional `+buildmetadata` suffix. -/
def BuildShape (build : List Char) : Prop :=
  build = [] ∨ ∃ bs, IdentsShape bs ∧ build = '+' :: dotJoin bs

theorem buildTail_true_iff (cs : List Char) : buildTail cs = true ↔ BuildShape cs := by
  cases cs with
  | nil => simp [buildTail, BuildShape]
  | cons c t =>
    by_cases hc : c = '+'
    · subst hc
      rw [buildTail, if_pos rfl]
      rw [identsThen_true_iff]
      constructor
      · rintro ⟨ps, rest, hshape, heq, -, hempty⟩
        have : rest = [] := by
          cases rest with
          | nil => rfl
          | cons a b => simp [List.isEmpty] at hempty
        subst this
        exact Or.inr ⟨ps, hshape, by simp [heq]⟩
      · rintro (h | ⟨bs, hshape, heq⟩)
        · simp at h
        · refine ⟨bs, [], hshape, ?_, by simp, by simp⟩
          have : t = dotJoin bs := by injection heq
          simp [this]
    · rw [buildTail, if_neg hc]
      refine iff_of_false (by simp) ?_
      rintro (h | ⟨bs, -, heq⟩)
      · simp at h
      · have : c = '+' := by injection heq
        exact hc this

theorem preTail_true_iff (cs : List Char) :
    preTail cs = true ↔
      ∃ pre build, PreShape pre ∧ BuildShape build ∧ cs = pre ++ build := by
  cases cs with
  | nil =>
    simp only [preTail, true_iff]
    exact ⟨[], [], Or.inl rfl, Or.inl rfl, rfl⟩
  | cons c t =>
    by_cases hc : c = '-'
    · subst hc
      rw [preTail, if_pos rfl, identsThen_true_iff]
      constructor
      · rintro ⟨ps, rest, hshape, heq, -, hbuild⟩
        exact ⟨'-' :: dotJoin ps, rest, Or.inr ⟨ps, hshape, rfl⟩,
          (buildTail_true_iff rest).mp hbuild, by simp [heq]⟩
      · rintro ⟨pre, build, hpre, hbuild, heq⟩
        rcases hpre with rfl | ⟨ps, hshape, rfl⟩
        · -- pre is empty, so the leading '-' must come from the build part
          rcases hbuild with rfl | ⟨bs, -, rfl⟩
          · simp at heq
          · simp at heq
        · simp only [List.cons_append] at heq
          obtain ⟨-, ht⟩ : '-' = '-' ∧ t = dotJoin ps ++ build := by
            constructor
            · rfl
            · injection heq
          refine ⟨ps, build, hshape, ht, ?_, (buildTail_true_iff build).mpr hbuild⟩
          intro d hd
          rcases hbuild with rfl | ⟨bs, -, rfl⟩
          · simp at hd
          · simp at hd
            subst hd
            exact ⟨by decide, by decide⟩
    · rw [preTail, if_neg hc]
      rw [buildTail_true_iff]
      constructor
      · intro h
        exact ⟨[], c :: t, Or.inl rfl, h, by simp⟩
      · rintro ⟨pre, build, hpre, hbuild, heq⟩
        rcases hpre with rfl | ⟨ps, -, rfl⟩
        · simp at heq
          rw [← heq] at hbuild
          exact hbuild
        · exact absurd (by injection heq) hc

theorem semverCore_true_iff (cs : List Char) :
    semverCore cs = true ↔
      ∃ d1 d2 d3 pre build, AllDigits d1 ∧ AllDigits d2 ∧ AllDigits d3 ∧
        PreShape pre ∧ BuildShape build ∧
        cs = d1 ++ '.' :: (d2 ++ '.' :: (d3 ++ (pre ++ build))) := by
  constructor
  · intro h
    rw [semverCore, digitsThen_eq] at h
    simp only [Bool.false_or, Bool.and_eq_true, Bool.not_eq_true'] at h
    obtain ⟨h1ne, h1⟩ := h
    have hsplit1 : cs.takeWhile isDigitChar ++ cs.dropWhile isDigitChar = cs :=
      List.takeWhile_append_dropWhile _ _
    cases hr0 : cs.dropWhile isDigitChar with
    | nil => rw [hr0] at h1; simp [dot1Tail] at h1
    | cons c u =>
      rw [hr0] at h1
      rw [dot1Tail] at h1
      by_cases hc : c = '.'
      · subst hc
        rw [if_pos rfl, digitsThen_eq] at h1
        simp only [Bool.false_or, Bool.and_eq_true, Bool.not_eq_true'] at h1
        obtain ⟨h2ne, h2⟩ := h1
        have hsplit2 : u.takeWhile isDigitChar ++ u.dropWhile isDigitChar = u :=
          List.takeWhile_append_dropWhile _ _
        cases hr1 : u.dropWhile isDigitChar with
        | nil => rw [hr1] at h2; simp [dot2Tail] at h2
        | cons c2 u2 =>
          rw [hr1] at h2
          rw [dot2Tail] at h2
          by_cases hc2 : c2 = '.'
          · subst hc2
            rw [if_pos rfl, digitsThen_eq] at h2
            simp only [Bool.false_or, Bool.and_eq_true, Bool.not_eq_true'] at h2
            obtain ⟨h3ne, h3⟩ := h2
            have hsplit3 : u2.takeWhile isDigitChar ++ u2.dropWhile isDigitChar = u2 :=
              List.takeWhile_append_dropWhile _ _
            rcases (preTail_true_iff _).mp h3 with ⟨pre, build, hpre, hbuild, heqpb⟩
            refine ⟨cs.takeWhile isDigitChar, u.takeWhile isDigitChar,
              u2.takeWhile isDigitChar, pre, build,
              ⟨?_, fun c hc => takeWhile_mem_pred hc⟩,
              ⟨?_, fun c hc => takeWhile_mem_pred hc⟩,
              ⟨?_, fun c hc => takeWhile_mem_pred hc⟩, hpre, hbuild, ?_⟩
            · intro hnil; rw [hnil] at h1ne; simp at h1ne
            · intro hnil; rw [hnil] at h2ne; simp at h2ne
            · intro hnil; rw [hnil] at h3ne; simp at h3ne
            · conv_lhs => rw [← hsplit1, hr0]
              congr 1
              congr 1
              conv_lhs => rw [← hsplit2, hr1]
              congr 1
              congr 1
              conv_lhs => rw [← hsplit3]
              rw [heqpb]
          · rw [if_neg hc2] at h2; simp at h2
      · rw [if_neg hc] at h1; simp at h1
  · rintro ⟨d1, d2, d3, pre, build, ⟨hd1ne, hd1⟩, ⟨hd2ne, hd2⟩, ⟨hd3ne, hd3⟩,
      hpre, hbuild, rfl⟩
    have hpb : ∀ c, (pre ++ build).head? = some c → isDigitChar c = false := by
      rcases hpre with rfl | ⟨ps, -, rfl⟩
      · rcases hbuild with rfl | ⟨bs, -, rfl⟩
        · intro c hc; simp at hc
        · intro c hc; simp at hc; rw [← hc]; decide
      · intro c hc; simp at hc; rw [← hc]; decide
    have hdot : ∀ (x : List Char) (c : Char),
        ('.' :: x).head? = some c → isDigitChar c = false := by
      intro x c hc; simp at hc; rw [← hc]; decide
    rw [semverCore, digitsThen_eq,
      takeWhile_append_stop hd1 (hdot _), dropWhile_append_stop hd1 (hdot _)]
    have h1 : (d1.isEmpty) = false := by
      cases d1 with
      | nil => exact absurd rfl hd1ne
      | cons a b => simp
    rw [h1]
    simp only [Bool.not_false, Bool.false_or, Bool.true_and]
    rw [dot1Tail, if_pos rfl, digitsThen_eq,
      takeWhile_append_stop hd2 (hdot _), dropWhile_append_stop hd2 (hdot _)]
    have h2 : (d2.isEmpty) = false := by
      cases d2 with
      | nil => exact absurd rfl hd2ne
      | cons a b => simp
    rw [h2]
    simp only [Bool.not_false, Bool.false_or, Bool.true_and]
    rw [dot2Tail, if_pos rfl, digitsThen_eq,
      takeWhile_append_stop hd3 hpb, dropWhile_append_stop hd3 hpb]
    have h3 : (d3.isEmpty) = false := by
      cases d3 with
      | nil => exact absurd rfl hd3ne
      | cons a b => simp
    rw [h3]
    simp only [Bool.not_false, Bool.false_or, Bool.true_and]
    exact (preTail_true_iff _).mpr ⟨pre, build, hpre, hbuild, rfl⟩

/-- The claim's semver grammar: optional leading `v`, three dot-separated
digit runs, and optional dash-prerelease and plus-build suffixes whose
identifiers are dot-separated alphanumeric-or-hyphen chunks. -/
def SemverShapeL (cs : List Char) : Prop :=
  ∃ v d1 d2 d3 pre build,
    (v = [] ∨ v = ['v']) ∧ AllDigits d1 ∧ AllDigits d2 ∧ AllDigits d3 ∧
    PreShape pre ∧ BuildShape build ∧
    cs = v ++ (d1 ++ '.' :: (d2 ++ '.' :: (d3 ++ (pre ++ build))))

theorem semverOK_true_iff (cs : List Char) : semverOK cs = true ↔ SemverShapeL cs := by
  rw [semverOK]
  by_cases hv : cs.head? = some 'v'
  · obtain ⟨t, rfl⟩ : ∃ t, cs = 'v' :: t := by
      cases cs with
      | nil => simp at hv
      | cons c u => simp at hv; rw [hv]; exact ⟨u, rfl⟩
    rw [if_pos hv]
    simp only [List.tail_cons]
    rw [semverCore_true_iff]
    constructor
    · rintro ⟨d1, d2, d3, pre, build, hd1, hd2, hd3, hpre, hbuild, rfl⟩
      exact ⟨['v'], d1, d2, d3, pre, build, Or.inr rfl, hd1, hd2, hd3, hpre, hbuild, rfl⟩
    · rintro ⟨v, d1, d2, d3, pre, build, hveq, hd1, hd2, hd3, hpre, hbuild, heq⟩
      rcases hveq with rfl | rfl
      · exfalso
        cases d1 with
        | nil => exact hd1.1 rfl
        | cons a b =>
          simp only [List.nil_append, List.cons_append] at heq
          have ha : a = 'v' := by injection heq with h1 _; exact h1.symm
          have : isDigitChar a = true := hd1.2 a (by simp)
          rw [ha] at this
          simp [isDigitChar] at this
      · refine ⟨d1, d2, d3, pre, build, hd1, hd2, hd3, hpre, hbuild, ?_⟩
        simp only [List.cons_append, List.nil_append] at heq
        injection heq
  · rw [if_neg hv]
    rw [semverCore_true_iff]
    constructor
    · rintro ⟨d1, d2, d3, pre, build, hd1, hd2, hd3, hpre, hbuild, rfl⟩
      exact ⟨[], d1, d2, d3, pre, build, Or.inl rfl, hd1, hd2, hd3, hpre, hbuild, by simp⟩
    · rintro ⟨v, d1, d2, d3, pre, build, hveq, hd1, hd2, hd3, hpre, hbuild, heq⟩
      rcases hveq with rfl | rfl
      · simp only [List.nil_append] at heq
        exact heq ▸ ⟨d1, d2, d3, pre, build, hd1, hd2, hd3, hpre, hbuild, rfl⟩
      · exfalso
        apply hv
        rw [heq]
        simp

theorem strData_append (a b : String) : (a ++ b).data = a.data ++ b.data := rfl

/-- C9: for every input string, `validateAndNormalizeSemver` returns the
input with a single leading `v` stripped exactly when the input matches the
semver shape (optional `v`, three dot-separated digit runs, optional
`-prerelease` and `+buildmetadata` suffixes with dot-separated
alphanumeric-or-hyphen identifiers), and otherwise throws an error that
names the offending value and the expected format. -/
theorem c9_validate_and_normalize_semver (s : String) :
    (validateAndNormalizeSemver s = Except.ok (stripLeadV s) ↔ SemverShapeL s.data) ∧
    (validateAndNormalizeSemver s = Except.error (semverErrMsg s) ↔ ¬ SemverShapeL s.data) ∧
    containsSub (semverErrMsg s).data s.data = true ∧
    containsSub (semverErrMsg s).data
      "[v]MAJOR.MINOR.PATCH[-prerelease][+buildmetadata]".data = true := by
  have hmsg : (semverErrMsg s).data =
      "Invalid semantic version: \"".data ++
        (s.data ++ "\". Expected format: [v]MAJOR.MINOR.PATCH[-prerelease][+buildmetadata]".data) := by
    rw [semverErrMsg, strData_append, strData_append, List.append_assoc]
  have hmsg2 : (semverErrMsg s).data =
      ("Invalid semantic version: \"".data ++ s.data ++ "\". Expected format: ".data) ++
        ("[v]MAJOR.MINOR.PATCH[-prerelease][+buildmetadata]".data ++ []) := by
    rw [semverErrMsg, strData_append, strData_append]
    have : "\". Expected format: [v]MAJOR.MINOR.PATCH[-prerelease][+buildmetadata]".data =
        "\". Expected format: ".data ++ "[v]MAJOR.MINOR.PATCH[-prerelease][+buildmetadata]".data := rfl
    rw [this]
    simp
  refine ⟨?_, ?_, ?_, ?_⟩
  · rw [validateAndNormalizeSemver]
    by_cases hval : isValidSemver s
    · rw [if_pos hval]
      exact iff_of_true rfl ((semverOK_true_iff s.data).mp hval)
    · rw [if_neg hval]
      refine iff_of_false (by simp) ?_
      intro hshape
      exact hval ((semverOK_true_iff s.data).mpr hshape)
  · rw [validateAndNormalizeSemver]
    by_cases hval : isValidSemver s
    · rw [if_pos hval]
      refine iff_of_false (by simp) ?_
      intro hnot
      exact hnot ((semverOK_true_iff s.data).mp hval)
    · rw [if_neg hval]
      refine iff_of_true rfl ?_
      intro hshape
      exact hval ((semverOK_true_iff s.data).mpr hshape)
  · rw [hmsg]
    exact containsSub_middle _ _ _
  · rw [hmsg2]
    exact containsSub_middle _ _ _

/- ### Category classifier (src/scripts/populate-unreleased-changelog.ts, normalizeCommitType) -/

/-- ASCII-range embedding of the JS `toLowerCase()` (all table keys and
labels in the source are ASCII). -/
def lowerStr (s : String) : String := ⟨lowerList s.data⟩

/-- The part of the `Object.prototype` chain reachable through
`typeMap[type.toLowerCase()]`: the lowered key is all lower case, so of the
prototype's members only `constructor` and `__proto__` can be named.  Their
values are the `Object` constructor function and the prototype object — not
section strings and not `false`.  The program only ever compares these
values with `false` and uses them as property keys, so the embedding
represents each by the string it coerces to as a key (the constructor's
Node rendering; no theorem depends on its exact characters, only on it
differing from the section headings). -/
def objectProtoGet (t : String) : Option String :=
  if t = "constructor" then some "function Object() \x7b [native code] \x7d"
  else if t = "__proto__" then some "[object Object]"
  else none

/-- The `typeMap[...]` lookup of `normalizeCommitType`: first the object
literal's own 25 properties (`some r` is a hit, where `r` itself is `none`
for the JS literal `false` and `some section` for a section heading), then
the inherited `Object.prototype` members, and only past both is the result
`undefined` (`none`). -/
def typeMapLookup (t : String) : Option (Option String) :=
  if t = "feat" then some (some "### Added")
  else if t = "feature" then some (some "### Added")
  else if t = "add" then some (some "### Added")
  else if t = "fix" then some (some "### Fixed")
  else if t = "bugfix" then some (some "### Fixed")
  else if t = "security" then some (some "### Security")
  else if t = "perf" then some (some "### Changed")
  else if t = "refactor" then some (some "### Changed")
  else if t = "style" then some (some "### Changed")
  else if t = "docs" then some (some "### Changed")
  else if t = "test" then some (some "### Changed")
  else if t = "chore" then some (some "### Changed")
  else if t = "build" then some (some "### Changed")
  else if t = "deps" then some (some "### Changed")
  else if t = "dependency" then some (some "### Changed")
  else if t = "dependencies" then some (some "### Changed")
  else if t = "revert" then some (some "### Changed")
  else if t = "remove" then some (some "### Removed")
  else if t = "removed" then some (some "### Removed")
  else if t = "delete" then some (some "### Removed")
  else if t = "deleted" then some (some "### Removed")
  else if t = "ci" then some none
  else if t = "release" then some none
  else if t = "hotfix" then some none
  else if t = "misc" then some (some "### Changed")
  else
    match objectProtoGet t with
    | some v => some (some v)
    | none => none

/-- Embedding of `normalizeCommitType`: the section heading for the type,
`none` for the JS `false` (ignored types), or the inherited prototype value
for the two reachable `Object.prototype` keys; only a lookup past the whole
chain (`undefined`) defaults to the Changed section. -/
def normalizeCommitType (type : String) : Option String :=
  match typeMapLookup (lowerStr type) with
  | some r => r
  | none => some "### Changed"

/-- The changelog categories named by the spec. -/
inductive Category where
  | Added | Fixed | Changed | Removed | Security | Ignored
deriving DecidableEq

/-- Classification of a lower-cased key, written from the claim's words
(membership in the fixed lists; anything unknown is Changed). -/
def specClassifyKey (t : String) : Category :=
  if t ∈ ["feat", "feature", "add"] then Category.Added
  else if t ∈ ["fix", "bugfix"] then Category.Fixed
  else if t = "security" then Category.Security
  else if t ∈ ["perf", "refactor", "style", "docs", "test", "chore", "build",
      "deps", "dependency", "dependencies", "revert", "misc"] then Category.Changed
  else if t ∈ ["remove", "removed", "delete", "deleted"] then Category.Removed
  else if t ∈ ["ci", "release", "hotfix"] then Category.Ignored
  else Category.Changed

/-- Classification table written from the claim's words (case-insensitive
lookup of the fixed lists). -/
def specClassify (type : String) : Category := specClassifyKey (lowerStr type)

/-- Rendering of a spec category as the code's section value (`none` is the
JS `false`, the ignored marker). -/
def sectionOfCategory : Category → Option String
  | Category.Added => some "### Added"
  | Category.Fixed => some "### Fixed"
  | Category.Changed => some "### Changed"
  | Category.Removed => some "### Removed"
  | Category.Security => some "### Security"
  | Category.Ignored => none

theorem typeMap_matches_spec_table (t : String) (hc : ¬ t = "constructor")
    (hp : ¬ t = "__proto__") :
    (match typeMapLookup t with
     | some r => r
     | none => some "### Changed") = sectionOfCategory (specClassifyKey t) := by
  by_cases h1 : t = "feat"
  · subst h1; rfl
  by_cases h2 : t = "feature"
  · subst h2; rfl
  by_cases h3 : t = "add"
  · subst h3; rfl
  by_cases h4 : t = "fix"
  · subst h4; rfl
  by_cases h5 : t = "bugfix"
  · subst h5; rfl
  by_cases h6 : t = "security"
  · subst h6; rfl
  by_cases h7 : t = "perf"
  · subst h7; rfl
  by_cases h8 : t = "refactor"
  · subst h8; rfl
  by_cases h9 : t = "style"
  · subst h9; rfl
  by_cases h10 : t = "docs"
  · subst h10; rfl
  by_cases h11 : t = "test"
  · subst h11; rfl
  by_cases h12 : t = "chore"
  · subst h12; rfl
  by_cases h13 : t = "build"
  · subst h13; rfl
  by_cases h14 : t = "deps"
  · subst h14; rfl
  by_cases h15 : t = "dependency"
  · subst h15; rfl
  by_cases h16 : t = "dependencies"
  · subst h16; rfl
  by_cases h17 : t = "revert"
  · subst h17; rfl
  by_cases h18 : t = "remove"
  · subst h18; rfl
  by_cases h19 : t = "removed"
  · subst h19; rfl
  by_cases h20 : t = "delete"
  · subst h20; rfl
  by_cases h21 : t = "deleted"
  · subst h21; rfl
  by_cases h22 : t = "ci"
  · subst h22; rfl
  by_cases h23 : t = "release"
  · subst h23; rfl
  by_cases h24 : t = "hotfix"
  · subst h24; rfl
  by_cases h25 : t = "misc"
  · subst h25; rfl
  rw [typeMapLookup, specClassifyKey]
  simp [h1, h2, h3, h4, h5, h6, h7, h8, h9, h10, h11, h12, h13, h14, h15, h16, h17, h18, h19, h20, h21, h22, h23, h24, h25, hc, hp, objectProtoGet, sectionOfCategory]

/-- C7 (amended): `normalizeCommitType` realizes the claim's
case-insensitive classification table — feat/feature/add Added, fix/bugfix
Fixed, security Security, the listed maintenance types Changed,
remove/removed/delete/deleted Removed, ci/release/hotfix Ignored, and any
other type Changed — for every type except those lower-casing to
`constructor` or `__proto__`: for these the object-literal lookup finds the
inherited `Object.prototype` value, which is not `undefined`, so the
function returns that value rather than the Changed heading, and it is
none of the five section headings. -/
theorem c7_normalize_commit_type_table (type : String) :
    (¬ lowerStr type = "constructor" → ¬ lowerStr type = "__proto__" →
      normalizeCommitType type = sectionOfCategory (specClassify type))
    ∧ (lowerStr type = "constructor" ∨ lowerStr type = "__proto__" →
      ∃ junk, normalizeCommitType type = some junk
        ∧ ¬ junk = "### Changed"
        ∧ ¬ junk ∈ ["### Added", "### Fixed", "### Changed", "### Removed",
            "### Security"]) := by
  constructor
  · intro hc hp
    rw [normalizeCommitType, specClassify]
    exact typeMap_matches_spec_table (lowerStr type) hc hp
  · intro hdisj
    rcases hdisj with h | h
    · exact ⟨"function Object() \x7b [native code] \x7d",
        by rw [normalizeCommitType, h]; rfl, by decide, by decide⟩
    · exact ⟨"[object Object]",
        by rw [normalizeCommitType, h]; rfl, by decide, by decide⟩

/-- Witness: the C7 theorem applied at a table key and at a type reaching
the inherited constructor, discharging the hypotheses of both parts. -/
theorem c7_normalize_commit_type_table_witness :
    normalizeCommitType "feat" = sectionOfCategory (specClassify "feat")
    ∧ ∃ junk, normalizeCommitType "Constructor" = some junk
        ∧ ¬ junk = "### Changed"
        ∧ ¬ junk ∈ ["### Added", "### Fixed", "### Changed", "### Removed",
            "### Security"] :=
  ⟨(c7_normalize_commit_type_table "feat").1 (by decide) (by decide),
   (c7_normalize_commit_type_table "Constructor").2 (Or.inl (by decide))⟩

/-- C7 counterexample: the commit types `constructor` and `__proto__` do
not map to the Changed section — the object-literal lookup inherits a
non-`undefined` value from `Object.prototype`, so the unknown-type default
is never reached — refuting that any type outside the table maps to
Changed. -/
theorem c7_counterexample :
    ¬ normalizeCommitType "constructor" = some "### Changed"
    ∧ ¬ normalizeCommitType "__proto__" = some "### Changed" :=
  ⟨by decide, by decide⟩

/- ### Conventional-commit parser
(src/scripts/lib/commit-parser.ts and extractConventionalCommitParts of
src/scripts/populate-unreleased-changelog.ts).

The pattern is the multiline global run of
CONVENTIONAL_COMMIT_REGEX, a caret anchor, a word run, an optional
parenthesized scope, an optional bang, whitespace around a colon, and a
greedy dot-run for the description.  The matcher below is its deterministic
specialization: every quantifier in the pattern either admits no
backtracking (each run is followed by a character its class rejects) or is
resolved the way the JS engine resolves it (the description falls back to
the last non-newline whitespace character when the trailing whitespace run
reaches the end of input). -/

/-- JS line terminators (the characters the multiline anchors break on and
the dot class excludes). -/
def isLineTerm (c : Char) : Bool :=
  c.toNat = 10 || c.toNat = 13 || c.toNat = 0x2028 || c.toNat = 0x2029

theorem lineTerm_ws {c : Char} (h : isLineTerm c = true) : isJsWs c = true := by
  simp only [isLineTerm, Bool.or_eq_true, decide_eq_true_eq] at h
  simp only [isJsWs, Bool.or_eq_true, decide_eq_true_eq, Bool.and_eq_true]
  omega

/-- The regex word class (letters, digits, underscore). -/
def isWordChar (c : Char) : Bool :=
  (48 ≤ c.toNat && c.toNat ≤ 57) || (65 ≤ c.toNat && c.toNat ≤ 90) ||
  (97 ≤ c.toNat && c.toNat ≤ 122) || c.toNat = 95

/-- A raw regex match: the four capture groups. -/
structure RawCC where
  ctype : List Char
  scope : Option (List Char)
  bang : Bool
  desc : List Char
deriving DecidableEq, Repr

/-- The optional scope group: on an opening parenthesis the class excluding
the closing parenthesis must be nonempty and must be closed, else the whole
match at this position fails; without an opening parenthesis the group is
skipped. -/
def scopeStep (cs : List Char) : Option (Option (List Char) × List Char) :=
  match cs with
  | c :: t =>
    if c = '(' then
      let inner := t.takeWhile (fun x => !(x = ')'))
      if inner.isEmpty then none
      else
        match t.dropWhile (fun x => !(x = ')')) with
        | _ :: r => some (some inner, r)
        | [] => none
    else some (none, cs)
  | [] => some (none, [])

/-- The optional bang group. -/
def bangSplit (cs : List Char) : Bool × List Char :=
  match cs with
  | c :: t => if c = '!' then (true, t) else (false, cs)
  | [] => (false, [])

/-- Whitespace run followed by the mandatory colon. -/
def colonStep (cs : List Char) : Option (List Char) :=
  match cs.dropWhile isJsWs with
  | c :: t => if c = ':' then some t else none
  | [] => none

/-- Whitespace run followed by the greedy nonempty dot-run description.
When the whitespace run reaches the end of input the greedy quantifier
backtracks into it and the description becomes the last non-newline
whitespace character, with the trailing newlines left unconsumed. -/
def descStep (cs : List Char) : Option (List Char × List Char) :=
  match cs.dropWhile isJsWs with
  | c :: t =>
    some ((c :: t).takeWhile (fun x => !(isLineTerm x)),
      (c :: t).dropWhile (fun x => !(isLineTerm x)))
  | [] =>
    match cs.reverse.dropWhile (fun x => isLineTerm x) with
    | c :: _ => some ([c], (cs.reverse.takeWhile (fun x => isLineTerm x)).reverse)
    | [] => none

/-- One attempted match of the embedded pattern at a caret position;
returns the captures and the input remaining after the match. -/
def ccMatchAt (cs : List Char) : Option (RawCC × List Char) :=
  let ty := cs.takeWhile isWordChar
  if ty.isEmpty then none
  else
    (scopeStep (cs.dropWhile isWordChar)).bind fun scp =>
      (colonStep (bangSplit scp.2).2).bind fun r4 =>
        (descStep r4).map fun dr =>
          ({ ctype := ty, scope := scp.1, bang := (bangSplit scp.2).1,
             desc := dr.1 }, dr.2)

/-- The exec loop of the global multiline regex: matches are attempted at
position zero and after every newline, and scanning resumes after each
match.  Fuel is the input length (each step consumes at least one
character). -/
def ccExecGo : Nat → Bool → List Char → List RawCC
  | 0, _, _ => []
  | fuel + 1, atStart, cs =>
    match (if atStart then ccMatchAt cs else none) with
    | some (rm, rest) => rm :: ccExecGo fuel false rest
    | none =>
      match cs with
      | [] => []
      | c :: t => ccExecGo fuel (isLineTerm c) t

/-- All matches of the conventional-commit pattern over a commit body. -/
def ccExec (cs : List Char) : List RawCC := ccExecGo (cs.length + 1) true cs

/-- ASCII word collapse of adjacent whitespace runs to single spaces
(the JS `replace` of one-or-more whitespace with a space). -/
def collapseWs : List Char → List Char
  | [] => []
  | [c] => if isJsWs c then [' '] else [c]
  | c :: d :: t =>
    if isJsWs c then
      if isJsWs d then collapseWs (d :: t) else ' ' :: collapseWs (d :: t)
    else c :: collapseWs (d :: t)

/-- One parsed commit fragment (the `CommitPart` interface). -/
structure CommitPart where
  type : String
  scope : Option String
  description : String
  sha : String
  breaking : Bool
deriving DecidableEq, Repr

/-- Build the pushed record from a raw match (trimming and collapsing as
the source does). -/
def mkPart (rm : RawCC) (sha : String) : CommitPart :=
  { type := ⟨jsTrimList rm.ctype⟩,
    scope := rm.scope.map (fun sc => (⟨jsTrimList sc⟩ : String)),
    description := ⟨collapseWs (jsTrimList rm.desc)⟩,
    sha := sha,
    breaking := rm.bang }

/-- Embedding of `extractConventionalCommitParts`: every raw match whose
type and description are nonempty and whose trimmed description is nonempty
is pushed (trimmed, with inner whitespace collapsed). -/
def extractConventionalCommitParts (commitBody : String) (sha : String) : List CommitPart :=
  (ccExec commitBody.data).filterMap fun rm =>
    if !rm.ctype.isEmpty && !rm.desc.isEmpty && !(jsTrimList rm.desc).isEmpty then
      some (mkPart rm sha)
    else none

/- ### Git-log parsing and rendering
(parseCommitsWithMultiplePrefixes of src/scripts/populate-unreleased-changelog.ts) -/

/-- JS `split` on a multi-character separator (non-overlapping, left to
right); fuel is the input length. -/
def splitSubGo (sep : List Char) : Nat → List Char → List (List Char)
  | _, [] => [[]]
  | 0, cs => [cs]
  | f + 1, c :: t =>
    if listStarts (c :: t) sep then
      [] :: splitSubGo sep f (List.drop (sep.length - 1) t)
    else
      match splitSubGo sep f t with
      | [] => [[c]]
      | l :: ls => (c :: l) :: ls

/-- JS `split` on a nonempty literal separator. -/
def splitSub (sep cs : List Char) : List (List Char) := splitSubGo sep cs.length cs

/-- The record delimiter used by the populate script's git-log format. -/
def endMarker : List Char := "|||END|||".data

/-- The `commitEntries` list: split on the end marker, keep entries with
nonempty trim. -/
def commitEntries (gitOutput : String) : List (List Char) :=
  (splitSub endMarker gitOutput.data).filter (fun e => !(jsTrimList e).isEmpty)

/-- Parts contributed by one commit entry: split off the SHA at the first
pipe, rejoin the body, honor the `[skip-changelog]` marker, parse, and fall
back to a single `misc` part from the first line. -/
def entryParts (entry : List Char) : List CommitPart :=
  match splitOnChar '|' entry with
  | [] => []
  | shaL :: rest =>
    let body : List Char := jsTrimList (List.intercalate ['|'] rest)
    if containsSubCI body "[skip-changelog]".data then []
    else if shaL.isEmpty || body.isEmpty then []
    else
      let shortSha : String := ⟨(jsTrimList shaL).take 7⟩
      let parts := extractConventionalCommitParts ⟨body⟩ shortSha
      if parts.isEmpty then
        let firstLine := jsTrimList ((splitOnChar '\n' body).headI)
        if firstLine.isEmpty then []
        else
          [{ type := "misc", scope := none, description := ⟨firstLine⟩,
             sha := shortSha, breaking := false }]
      else parts

/-- The `allParts` accumulation over all commit entries. -/
def allCommitParts (gitOutput : String) : List CommitPart :=
  ((commitEntries gitOutput).map entryParts).flatten

/-- Push a part at the end of the list held under `key` in the grouping
record (the JS `groupedParts[sectionName].push(part)` with on-demand array
creation). -/
def pushAssoc : List (String × List CommitPart) → String → CommitPart →
    List (String × List CommitPart)
  | [], k, p => [(k, [p])]
  | (k', l) :: rest, k, p =>
    if k' = k then (k', l ++ [p]) :: rest else (k', l) :: pushAssoc rest k p

/-- One iteration of the grouping loop: breaking parts are collected first,
then the part is dropped when its type classifies as ignored, else pushed
under its section. -/
def groupStep (acc : List (String × List CommitPart) × List CommitPart)
    (p : CommitPart) : List (String × List CommitPart) × List CommitPart :=
  let acc1 := if p.breaking then (acc.1, acc.2 ++ [p]) else acc
  match normalizeCommitType p.type with
  | none => acc1
  | some sec => (pushAssoc acc1.1 sec p, acc1.2)

/-- The grouping loop over all parts (grouped record, breaking list). -/
def groupAll (parts : List CommitPart) :
    List (String × List CommitPart) × List CommitPart :=
  parts.foldl groupStep ([], [])

/-- Observe the grouping record at one key (a missing key is an empty
list). -/
def lookupGroup (m : List (String × List CommitPart)) (k : String) : List CommitPart :=
  match m.find? (fun e => e.1 = k) with
  | some e => e.2
  | none => []

/-- Commit reference rendered after a change line: a Markdown commit link
when a repository URL is known, else the bare short SHA. -/
def linkPart (repoUrl : String) (p : CommitPart) : String :=
  if repoUrl.data.isEmpty then " (" ++ p.sha ++ ")"
  else " ([" ++ p.sha ++ "](" ++ repoUrl ++ "/commit/" ++ p.sha ++ "))"

/-- The optional scope suffix of a change line. -/
def scopePart (p : CommitPart) : String :=
  match p.scope with
  | some sc => " (" ++ sc ++ ")"
  | none => ""

/-- A line of the breaking-changes block. -/
def renderBreakingLine (repoUrl : String) (p : CommitPart) : String :=
  "- " ++ p.description ++ scopePart p ++ linkPart repoUrl p

/-- A line of a category block (with the breaking indicator). -/
def renderCatLine (repoUrl : String) (p : CommitPart) : String :=
  "- " ++ p.description ++ scopePart p ++
    (if p.breaking then " ⚠️ BREAKING" else "") ++ linkPart repoUrl p

/-- The fixed category ordering of the source. -/
def sectionOrder : List String :=
  ["### Added", "### Fixed", "### Changed", "### Removed", "### Security"]

/-- The heading of the breaking-changes block.  (The emoji in the script
file reached this workspace with mangled bytes; the repository's unit tests
pin the marker glyphs used here.) -/
def breakingHeader : String := "### ⚠️ BREAKING CHANGES"

/-- Assemble the `sections` array from the breaking list and the grouping
record. -/
def sectionsFrom (repoUrl : String) (g : List (String × List CommitPart))
    (breaking : List CommitPart) : List String :=
  (if !breaking.isEmpty then
    [breakingHeader] ++ breaking.map (renderBreakingLine repoUrl) ++ [""]
  else []) ++
  (sectionOrder.map (fun sec =>
    let gp := lookupGroup g sec
    if !gp.isEmpty then [sec] ++ gp.map (renderCatLine repoUrl) ++ [""] else [])).flatten

/-- Embedding of `parseCommitsWithMultiplePrefixes`: renders the Unreleased
body for a git log. -/
def parseCommitsWithMultiplePrefixes (gitOutput repoUrl : String) : String :=
  if gitOutput.data.isEmpty then ""
  else
    let g := groupAll (allCommitParts gitOutput)
    let sections := sectionsFrom repoUrl g.1 g.2
    if !sections.isEmpty then jsTrim ⟨joinLines (sections.map String.data)⟩
    else "No changes yet."

theorem lookupGroup_nil (k : String) : lookupGroup [] k = [] := rfl

theorem lookupGroup_pushAssoc (m : List (String × List CommitPart)) (k k' : String)
    (p : CommitPart) :
    lookupGroup (pushAssoc m k p) k' =
      if k' = k then lookupGroup m k' ++ [p] else lookupGroup m k' := by
  induction m with
  | nil =>
    by_cases h : k' = k
    · subst h; simp [pushAssoc, lookupGroup, List.find?]
    · simp [pushAssoc, lookupGroup, List.find?, h, Ne.symm h]
  | cons e rest ih =>
    obtain ⟨k'', l⟩ := e
    by_cases hk : k'' = k
    · subst hk
      by_cases h : k' = k''
      · subst h; simp [pushAssoc, lookupGroup, List.find?]
      · simp [pushAssoc, lookupGroup, List.find?, h, Ne.symm h]
    · rw [pushAssoc, if_neg hk]
      by_cases h : k'' = k'
      · subst h
        have h1 : lookupGroup ((k'', l) :: pushAssoc rest k p) k'' = l := by
          simp [lookupGroup, List.find?]
        have h2 : lookupGroup ((k'', l) :: rest) k'' = l := by
          simp [lookupGroup, List.find?]
        rw [h1, if_neg hk, h2]
      · have h1 : lookupGroup ((k'', l) :: pushAssoc rest k p) k' =
            lookupGroup (pushAssoc rest k p) k' := by
          simp [lookupGroup, List.find?, h]
        have h2 : lookupGroup ((k'', l) :: rest) k' = lookupGroup rest k' := by
          simp [lookupGroup, List.find?, h]
        rw [h1, h2, ih]

theorem groupStep_fst (acc : List (String × List CommitPart) × List CommitPart)
    (p : CommitPart) :
    (groupStep acc p).1 =
      match normalizeCommitType p.type with
      | none => acc.1
      | some sec => pushAssoc acc.1 sec p := by
  rw [groupStep]
  cases hnorm : normalizeCommitType p.type <;> cases hb : p.breaking <;> simp [hnorm]

theorem groupStep_snd (acc : List (String × List CommitPart) × List CommitPart)
    (p : CommitPart) :
    (groupStep acc p).2 = if p.breaking then acc.2 ++ [p] else acc.2 := by
  rw [groupStep]
  cases hnorm : normalizeCommitType p.type <;> cases hb : p.breaking <;> simp [hnorm]

theorem groupFold_lookup (parts : List CommitPart) :
    ∀ (acc : List (String × List CommitPart) × List CommitPart) (k : String),
      lookupGroup (parts.foldl groupStep acc).1 k =
        lookupGroup acc.1 k ++
          parts.filter (fun p => normalizeCommitType p.type == some k) := by
  induction parts with
  | nil => intro acc k; simp
  | cons p ps ih =>
    intro acc k
    rw [List.foldl_cons, List.filter_cons, ih (groupStep acc p) k, groupStep_fst]
    cases hnorm : normalizeCommitType p.type with
    | none => simp
    | some sec =>
      rw [lookupGroup_pushAssoc]
      by_cases hks : k = sec
      · subst hks
        simp
      · simp [if_neg hks, Ne.symm hks]

theorem groupFold_breaking (parts : List CommitPart) :
    ∀ (acc : List (String × List CommitPart) × List CommitPart),
      (parts.foldl groupStep acc).2 =
        acc.2 ++ parts.filter (fun p => p.breaking) := by
  induction parts with
  | nil => intro acc; simp
  | cons p ps ih =>
    intro acc
    rw [List.foldl_cons, List.filter_cons, ih (groupStep acc p), groupStep_snd]
    cases hb : p.breaking <;> simp

/-- Filter-based rendering of the Unreleased body: the breaking block is
built from all breaking-flagged fragments and each category block only from
the fragments whose type classifies to that section (never from
ignored-type fragments). -/
def renderFromParts (parts : List CommitPart) (repoUrl : String) : String :=
  let breaking := parts.filter (fun p => p.breaking)
  let sections : List String :=
    (if !breaking.isEmpty then
      [breakingHeader] ++ breaking.map (renderBreakingLine repoUrl) ++ [""]
    else []) ++
    (sectionOrder.map (fun sec =>
      let gp := parts.filter (fun p => normalizeCommitType p.type == some sec)
      if !gp.isEmpty then [sec] ++ gp.map (renderCatLine repoUrl) ++ [""] else [])).flatten
  if !sections.isEmpty then jsTrim ⟨joinLines (sections.map String.data)⟩
  else "No changes yet."

/-- C1 (amended): the rendered Unreleased body equals the filter-based
rendering, in which ignored-type fragments (`ci`, `release`, `hotfix`,
case-insensitively) contribute to no category block — they are dropped
entirely unless they carry the breaking flag, in which case they still
appear in the breaking-changes block. -/
theorem c1_ignored_commits_in_category_blocks (gitOutput repoUrl : String) :
    parseCommitsWithMultiplePrefixes gitOutput repoUrl =
      if gitOutput.data.isEmpty then ""
      else renderFromParts (allCommitParts gitOutput) repoUrl := by
  simp only [parseCommitsWithMultiplePrefixes, renderFromParts, sectionsFrom]
  by_cases hempty : gitOutput.data.isEmpty
  · rw [if_pos hempty, if_pos hempty]
  · rw [if_neg hempty, if_neg hempty]
    have hb : (groupAll (allCommitParts gitOutput)).2 =
        (allCommitParts gitOutput).filter (fun p => p.breaking) := by
      rw [groupAll, groupFold_breaking]
      simp [lookupGroup]
    have hlam : (fun sec =>
        let gp := lookupGroup (groupAll (allCommitParts gitOutput)).1 sec
        if !gp.isEmpty then [sec] ++ gp.map (renderCatLine repoUrl) ++ [""] else []) =
        (fun sec =>
        let gp := (allCommitParts gitOutput).filter
          (fun p => normalizeCommitType p.type == some sec)
        if !gp.isEmpty then [sec] ++ gp.map (renderCatLine repoUrl) ++ [""] else []) := by
      funext sec
      rw [groupAll, groupFold_lookup]
      simp [lookupGroup]
    rw [hb, hlam]

/-- C1 (counterexample to the claim as stated): a breaking-marked commit of
the ignored type `ci` does appear in the rendered body, inside the
breaking-changes block. -/
theorem c1_counterexample :
    normalizeCommitType "ci" = none ∧
    parseCommitsWithMultiplePrefixes "abc1234|ci!: drop support|||END|||" "" =
      "### ⚠️ BREAKING CHANGES\n- drop support (abc1234)" ∧
    strContains
      (parseCommitsWithMultiplePrefixes "abc1234|ci!: drop support|||END|||" "")
      "drop support" = true := by
  refine ⟨rfl, ?_, ?_⟩ <;> rfl

/- ### Frame lemmas for the commit matcher -/

theorem jsWs_not_word {c : Char} (h : isJsWs c = true) : isWordChar c = false := by
  simp only [isJsWs, Bool.or_eq_true, decide_eq_true_eq, Bool.and_eq_true] at h
  simp only [isWordChar, Bool.or_eq_false_iff, Bool.and_eq_false_iff,
    decide_eq_false_iff_not]
  omega

theorem takeWhile_frameA {p : Char → Bool} {x : List Char}
    (hx : ∀ c, x.head? = some c → p c = false) : ∀ (l : List Char),
    (l ++ x).takeWhile p = l.takeWhile p ∧ (l ++ x).dropWhile p = l.dropWhile p ++ x := by
  intro l
  induction l with
  | nil =>
    cases x with
    | nil => simp
    | cons c t =>
      have hc : ¬ p c = true := by simp [hx c rfl]
      simp [List.takeWhile_cons_of_neg hc, List.dropWhile_cons_of_neg hc]
  | cons c t ih =>
    by_cases hc : p c
    · simp [List.takeWhile_cons_of_pos hc, List.dropWhile_cons_of_pos hc, ih]
    · simp [List.takeWhile_cons_of_neg hc, List.dropWhile_cons_of_neg hc]

theorem takeWhile_frameB {p : Char → Bool} : ∀ {l : List Char}, l.dropWhile p ≠ [] →
    ∀ (x : List Char),
    (l ++ x).takeWhile p = l.takeWhile p ∧ (l ++ x).dropWhile p = l.dropWhile p ++ x := by
  intro l
  induction l with
  | nil => intro h; exact absurd rfl h
  | cons c t ih =>
    intro h x
    by_cases hc : p c
    · rw [List.dropWhile_cons_of_pos hc] at h
      simp [List.takeWhile_cons_of_pos hc, List.dropWhile_cons_of_pos hc, ih h x]
    · simp [List.takeWhile_cons_of_neg hc, List.dropWhile_cons_of_neg hc]

theorem scopeStep_frame {cs : List Char} {sc : Option (List Char)} {rem : List Char}
    (h : scopeStep cs = some (sc, rem)) (r : List Char) :
    scopeStep (cs ++ '\n' :: r) = some (sc, rem ++ '\n' :: r) := by
  cases cs with
  | nil =>
    rw [scopeStep] at h
    injection h with h'
    injection h' with h1 h2
    subst h1; subst h2
    simp [scopeStep]
  | cons c t =>
    by_cases hc : c = '('
    · subst hc
      rw [scopeStep, if_pos rfl] at h
      by_cases hin : (t.takeWhile (fun x => !(x = ')'))).isEmpty
      · rw [if_pos hin] at h; exact absurd h (by simp)
      · rw [if_neg hin] at h
        cases hdrop : t.dropWhile (fun x => !(x = ')')) with
        | nil => rw [hdrop] at h; exact absurd h (by simp)
        | cons d rd =>
          rw [hdrop] at h
          injection h with h'
          injection h' with h1 h2
          have hfr := takeWhile_frameB (p := fun x => !(x = ')'))
            (l := t) (by rw [hdrop]; simp) ('\n' :: r)
          rw [List.cons_append, scopeStep, if_pos rfl, hfr.1, hfr.2, hdrop]
          rw [if_neg hin]
          simp only [List.cons_append]
          rw [← h1, ← h2]
    · rw [scopeStep, if_neg hc] at h
      injection h with h'
      injection h' with h1 h2
      subst h1; subst h2
      rw [List.cons_append, scopeStep, if_neg hc]

theorem bangSplit_frame (cs : List Char) (r : List Char) :
    bangSplit (cs ++ '\n' :: r) = ((bangSplit cs).1, (bangSplit cs).2 ++ '\n' :: r) := by
  cases cs with
  | nil => simp [bangSplit]
  | cons c t =>
    by_cases hc : c = '!'
    · subst hc; simp [bangSplit]
    · simp [bangSplit, hc]

theorem colonStep_frame {cs : List Char} {r4 : List Char}
    (h : colonStep cs = some r4) (r : List Char) :
    colonStep (cs ++ '\n' :: r) = some (r4 ++ '\n' :: r) := by
  rw [colonStep] at h
  cases hdrop : cs.dropWhile isJsWs with
  | nil => rw [hdrop] at h; exact absurd h (by simp)
  | cons c t =>
    rw [hdrop] at h
    have h' : (if c = ':' then some t else none) = some r4 := h
    by_cases hc : c = ':'
    · rw [if_pos hc] at h'
      injection h' with h1
      subst h1; subst hc
      have hfr := takeWhile_frameB (p := isJsWs) (l := cs) (by rw [hdrop]; simp) ('\n' :: r)
      rw [colonStep, hfr.2, hdrop, List.cons_append]
      rfl
    · rw [if_neg hc] at h'; exact absurd h' (by simp)

theorem jsTrim_single_ws {c : Char} (h : isJsWs c = true) : jsTrimList [c] = [] := by
  simp [jsTrimList, jsTrimL, jsTrimR, List.dropWhile_cons_of_pos h]

theorem descStep_line {cs : List Char} {d rest : List Char}
    (h : descStep cs = some (d, rest)) (hnl : ∀ c ∈ cs, isLineTerm c = false)
    (hd : jsTrimList d ≠ []) :
    rest = [] ∧ ∀ (r : List Char),
      descStep (cs ++ '\n' :: r) = some (d, '\n' :: r) := by
  rw [descStep] at h
  cases hdrop : cs.dropWhile isJsWs with
  | nil =>
    rw [hdrop] at h
    exfalso
    cases hrev : cs.reverse.dropWhile (fun x => isLineTerm x) with
    | nil => rw [hrev] at h; exact absurd h (by simp)
    | cons c u =>
      rw [hrev] at h
      injection h with h'
      injection h' with h1 h2
      have hcmem : c ∈ cs := by
        have : c ∈ cs.reverse.dropWhile (fun x => isLineTerm x) := by rw [hrev]; simp
        have := (List.dropWhile_sublist _).mem this
        exact List.mem_reverse.mp this
      have hws : isJsWs c = true := by
        have hall := List.dropWhile_eq_nil_iff.mp hdrop
        exact hall c hcmem
      rw [← h1] at hd
      exact hd (jsTrim_single_ws hws)
  | cons c t =>
    rw [hdrop] at h
    injection h with h'
    injection h' with h1 h2
    have hct : ∀ x ∈ c :: t, isLineTerm x = false := by
      intro x hx
      have : x ∈ cs := (List.dropWhile_sublist _).mem (by rw [hdrop]; exact hx)
      exact hnl x this
    have htake : (c :: t).takeWhile (fun x => !(isLineTerm x)) = c :: t := by
      rw [List.takeWhile_eq_self_iff]
      intro x hx
      simp [hct x hx]
    have hdropnl : (c :: t).dropWhile (fun x => !(isLineTerm x)) = [] := by
      rw [List.dropWhile_eq_nil_iff]
      intro x hx
      simp [hct x hx]
    constructor
    · rw [← h2, hdropnl]
    · intro r
      have hfr := takeWhile_frameB (p := isJsWs) (l := cs) (by rw [hdrop]; simp) ('\n' :: r)
      rw [descStep, hfr.2, hdrop, List.cons_append]
      have hfrA := takeWhile_frameA (p := fun x => !(isLineTerm x)) (x := '\n' :: r)
        (by intro y hy; simp at hy; rw [← hy]; rfl) (c :: t)
      show some (((c :: t) ++ '\n' :: r).takeWhile (fun x => !(isLineTerm x)),
          ((c :: t) ++ '\n' :: r).dropWhile (fun x => !(isLineTerm x))) = some (d, '\n' :: r)
      rw [hfrA.1, hfrA.2, htake, hdropnl, ← h1]
      rw [htake]
      simp

theorem ccMatchAt_inv {l : List Char} {rm : RawCC} {rem : List Char}
    (h : ccMatchAt l = some (rm, rem)) :
    ∃ r2 r4,
      (l.takeWhile isWordChar).isEmpty = false ∧
      rm.ctype = l.takeWhile isWordChar ∧
      scopeStep (l.dropWhile isWordChar) = some (rm.scope, r2) ∧
      rm.bang = (bangSplit r2).1 ∧
      colonStep (bangSplit r2).2 = some r4 ∧
      descStep r4 = some (rm.desc, rem) := by
  rw [ccMatchAt] at h
  by_cases hty : (l.takeWhile isWordChar).isEmpty
  · rw [if_pos hty] at h; exact absurd h (by simp)
  · rw [if_neg hty] at h
    rw [Option.bind_eq_some] at h
    obtain ⟨scp, hscope, h⟩ := h
    rw [Option.bind_eq_some] at h
    obtain ⟨r4, hcolon, h⟩ := h
    rw [Option.map_eq_some'] at h
    obtain ⟨dr, hdesc, h⟩ := h
    obtain ⟨sc, r2⟩ := scp
    obtain ⟨d, rest⟩ := dr
    injection h with h' hrem
    subst hrem
    refine ⟨r2, r4, by simp [hty], ?_, ?_, ?_, hcolon, ?_⟩
    · rw [← h']
    · rw [← h']; exact hscope
    · rw [← h']
    · rw [← h']; exact hdesc

theorem ccMatchAt_build {l : List Char} {sc : Option (List Char)} {r2 r4 d rest : List Char}
    (hty : (l.takeWhile isWordChar).isEmpty = false)
    (hsc : scopeStep (l.dropWhile isWordChar) = some (sc, r2))
    (hco : colonStep (bangSplit r2).2 = some r4)
    (hde : descStep r4 = some (d, rest)) :
    ccMatchAt l = some
      ({ ctype := l.takeWhile isWordChar, scope := sc, bang := (bangSplit r2).1,
         desc := d }, rest) := by
  rw [ccMatchAt, if_neg (by simp [hty]), hsc]
  simp only [Option.some_bind]
  rw [hco]
  simp only [Option.some_bind]
  rw [hde]
  rfl

/-- Characters of the remainder handed to the colon stage come from the
matched position's input (used to carry the no-newline fact inward). -/
theorem scopeStep_mem {cs : List Char} {sc : Option (List Char)} {rem : List Char}
    (h : scopeStep cs = some (sc, rem)) : ∀ c ∈ rem, c ∈ cs := by
  cases cs with
  | nil =>
    rw [scopeStep] at h
    injection h with h'
    injection h' with h1 h2
    subst h2
    intro c hc
    simp at hc
  | cons a t =>
    by_cases ha : a = '('
    · subst ha
      rw [scopeStep, if_pos rfl] at h
      by_cases hin : (t.takeWhile (fun x => !(x = ')'))).isEmpty
      · rw [if_pos hin] at h; exact absurd h (by simp)
      · rw [if_neg hin] at h
        cases hdrop : t.dropWhile (fun x => !(x = ')')) with
        | nil => rw [hdrop] at h; exact absurd h (by simp)
        | cons e re =>
          rw [hdrop] at h
          injection h with h'
          injection h' with h1 h2
          subst h2
          intro c hc
          have : c ∈ t.dropWhile (fun x => !(x = ')')) := by rw [hdrop]; simp [hc]
          have : c ∈ t := (List.dropWhile_sublist _).mem this
          simp [this]
    · rw [scopeStep, if_neg ha] at h
      injection h with h'
      injection h' with h1 h2
      subst h2
      intro c hc
      exact hc

theorem bangSplit_mem (cs : List Char) : ∀ c ∈ (bangSplit cs).2, c ∈ cs := by
  cases cs with
  | nil => intro c hc; simp [bangSplit] at hc
  | cons a t =>
    by_cases ha : a = '!'
    · subst ha
      intro c hc
      simp [bangSplit] at hc
      simp [hc]
    · intro c hc
      simp [bangSplit, ha] at hc
      rcases hc with rfl | hcc
      · simp
      · simp [hcc]

theorem colonStep_mem {cs : List Char} {r4 : List Char}
    (h : colonStep cs = some r4) : ∀ c ∈ r4, c ∈ cs := by
  rw [colonStep] at h
  cases hdrop : cs.dropWhile isJsWs with
  | nil => rw [hdrop] at h; exact absurd h (by simp)
  | cons a t =>
    rw [hdrop] at h
    have h' : (if a = ':' then some t else none) = some r4 := h
    by_cases ha : a = ':'
    · rw [if_pos ha] at h'
      injection h' with h1
      subst h1
      intro c hc
      have : c ∈ cs.dropWhile isJsWs := by rw [hdrop]; simp [hc]
      exact (List.dropWhile_sublist _).mem this
    · rw [if_neg ha] at h'; exact absurd h' (by simp)

/-- A successful match at the start of a newline-free line with visibly
nonempty description consumes the whole line, and matches the same on the
line followed by a newline and anything else. -/
theorem ccMatchAt_line {l : List Char} {rm : RawCC} {rem : List Char}
    (h : ccMatchAt l = some (rm, rem)) (hnl : ∀ c ∈ l, isLineTerm c = false)
    (hd : jsTrimList rm.desc ≠ []) :
    rem = [] ∧ ∀ (r : List Char),
      ccMatchAt (l ++ '\n' :: r) = some (rm, '\n' :: r) := by
  obtain ⟨r2, r4, hty, hct, hsc, hbang, hco, hde⟩ := ccMatchAt_inv h
  have hr1mem : ∀ c ∈ l.dropWhile isWordChar, c ∈ l :=
    fun c hc => (List.dropWhile_sublist _).mem hc
  have hr2mem : ∀ c ∈ r2, c ∈ l := fun c hc => hr1mem c (scopeStep_mem hsc c hc)
  have hr4mem : ∀ c ∈ r4, c ∈ l :=
    fun c hc => hr2mem c (bangSplit_mem r2 c (colonStep_mem hco c hc))
  have hr4nl : ∀ c ∈ r4, isLineTerm c = false := fun c hc => hnl c (hr4mem c hc)
  obtain ⟨hrem, hdesc'⟩ := descStep_line hde hr4nl hd
  refine ⟨hrem, ?_⟩
  intro r
  have hfrW := takeWhile_frameA (p := isWordChar) (x := '\n' :: r)
    (by intro y hy; simp at hy; rw [← hy]; rfl) l
  have hscope' := scopeStep_frame hsc r
  have hbang' := bangSplit_frame r2 r
  have hcolon' := colonStep_frame hco r
  have hbuild := @ccMatchAt_build (l ++ '\n' :: r) rm.scope
    (r2 ++ '\n' :: r) (r4 ++ '\n' :: r) rm.desc ('\n' :: r)
    (by rw [hfrW.1]; exact hty)
    (by rw [hfrW.2]; exact hscope')
    (by rw [hbang']; exact hcolon')
    (hdesc' r)
  rw [hbuild, hfrW.1, ← hct]
  show some (RawCC.mk rm.ctype rm.scope (bangSplit (r2 ++ '\n' :: r)).1 rm.desc,
    '\n' :: r) = some (rm, '\n' :: r)
  rw [hbang']
  show some (RawCC.mk rm.ctype rm.scope (bangSplit r2).1 rm.desc,
    '\n' :: r) = some (rm, '\n' :: r)
  rw [← hbang]

theorem scopeStep_length {cs : List Char} {sc : Option (List Char)} {rem : List Char}
    (h : scopeStep cs = some (sc, rem)) : rem.length ≤ cs.length := by
  cases cs with
  | nil =>
    rw [scopeStep] at h
    injection h with h'
    injection h' with h1 h2
    subst h2
    simp
  | cons a t =>
    by_cases ha : a = '('
    · subst ha
      rw [scopeStep, if_pos rfl] at h
      by_cases hin : (t.takeWhile (fun x => !(x = ')'))).isEmpty
      · rw [if_pos hin] at h; exact absurd h (by simp)
      · rw [if_neg hin] at h
        cases hdrop : t.dropWhile (fun x => !(x = ')')) with
        | nil => rw [hdrop] at h; exact absurd h (by simp)
        | cons e re =>
          rw [hdrop] at h
          injection h with h'
          injection h' with h1 h2
          subst h2
          have h3 : (e :: re).length ≤ t.length := by
            rw [← hdrop]
            exact (List.dropWhile_sublist _).length_le
          simp at h3
          simp
          omega
    · rw [scopeStep, if_neg ha] at h
      injection h with h'
      injection h' with h1 h2
      subst h2
      simp

theorem bangSplit_length (cs : List Char) : (bangSplit cs).2.length ≤ cs.length := by
  cases cs with
  | nil => simp [bangSplit]
  | cons a t =>
    by_cases ha : a = '!'
    · subst ha; simp [bangSplit]
    · simp [bangSplit, ha]

theorem colonStep_length {cs : List Char} {r4 : List Char}
    (h : colonStep cs = some r4) : r4.length < cs.length := by
  rw [colonStep] at h
  cases hdrop : cs.dropWhile isJsWs with
  | nil => rw [hdrop] at h; exact absurd h (by simp)
  | cons a t =>
    rw [hdrop] at h
    have h' : (if a = ':' then some t else none) = some r4 := h
    by_cases ha : a = ':'
    · rw [if_pos ha] at h'
      injection h' with h1
      subst h1
      have h3 : (a :: t).length ≤ cs.length := by
        rw [← hdrop]
        exact (List.dropWhile_sublist _).length_le
      simp at h3
      omega
    · rw [if_neg ha] at h'; exact absurd h' (by simp)

theorem descStep_length {cs : List Char} {d rest : List Char}
    (h : descStep cs = some (d, rest)) : rest.length ≤ cs.length := by
  rw [descStep] at h
  cases hdrop : cs.dropWhile isJsWs with
  | nil =>
    rw [hdrop] at h
    cases hrev : cs.reverse.dropWhile (fun x => isLineTerm x) with
    | nil => rw [hrev] at h; exact absurd h (by simp)
    | cons c u =>
      rw [hrev] at h
      injection h with h'
      injection h' with h1 h2
      subst h2
      calc ((cs.reverse.takeWhile (fun x => isLineTerm x)).reverse).length
          ≤ cs.reverse.length := by
            rw [List.length_reverse]
            exact (List.takeWhile_sublist _).length_le
        _ = cs.length := List.length_reverse _
  | cons c t =>
    rw [hdrop] at h
    injection h with h'
    injection h' with h1 h2
    subst h2
    have h3 : (c :: t).length ≤ cs.length := by
      rw [← hdrop]
      exact (List.dropWhile_sublist _).length_le
    calc ((c :: t).dropWhile (fun x => !(isLineTerm x))).length
        ≤ (c :: t).length := (List.dropWhile_sublist _).length_le
      _ ≤ cs.length := h3

theorem ccMatchAt_rest_length {cs : List Char} {rm : RawCC} {rest : List Char}
    (h : ccMatchAt cs = some (rm, rest)) : rest.length < cs.length := by
  obtain ⟨r2, r4, hty, hct, hsc, hbang, hco, hde⟩ := ccMatchAt_inv h
  have h1 : (cs.dropWhile isWordChar).length < cs.length := by
    have hsplit : cs.takeWhile isWordChar ++ cs.dropWhile isWordChar = cs :=
      List.takeWhile_append_dropWhile _ _
    have := congrArg List.length hsplit
    rw [List.length_append] at this
    have hne : (cs.takeWhile isWordChar).length ≠ 0 := by
      intro h0
      rw [List.length_eq_zero.mp h0] at hty
      simp at hty
    omega
  have h2 : r2.length ≤ (cs.dropWhile isWordChar).length := scopeStep_length hsc
  have h3 : (bangSplit r2).2.length ≤ r2.length := bangSplit_length r2
  have h4 : r4.length < (bangSplit r2).2.length := colonStep_length hco
  have h5 : rest.length ≤ r4.length := descStep_length hde
  omega

theorem ccExecGo_nil : ∀ (f : Nat) (b : Bool), ccExecGo f b [] = [] := by
  intro f b
  cases f with
  | zero => rfl
  | succ g => cases b <;> rfl

theorem ccExecGo_congr : ∀ (n f g : Nat) (b : Bool) (cs : List Char),
    cs.length ≤ n → cs.length ≤ f → cs.length ≤ g →
    ccExecGo f b cs = ccExecGo g b cs := by
  intro n
  induction n with
  | zero =>
    intro f g b cs hn _ _
    rw [List.length_eq_zero.mp (Nat.le_zero.mp hn)]
    rw [ccExecGo_nil, ccExecGo_nil]
  | succ n ih =>
    intro f g b cs hn hf hg
    cases cs with
    | nil => rw [ccExecGo_nil, ccExecGo_nil]
    | cons c t =>
      simp only [List.length_cons] at hn hf hg
      obtain ⟨f', rfl⟩ : ∃ f', f = f' + 1 := ⟨f - 1, by omega⟩
      obtain ⟨g', rfl⟩ : ∃ g', g = g' + 1 := ⟨g - 1, by omega⟩
      rw [ccExecGo, ccExecGo]
      cases hm : (if b then ccMatchAt (c :: t) else none) with
      | some pr =>
        have hmm : ccMatchAt (c :: t) = some pr := by
          cases b with
          | true => simpa using hm
          | false => simp at hm
        obtain ⟨rm, rest⟩ := pr
        have hlen : rest.length < (c :: t).length := ccMatchAt_rest_length hmm
        simp only [List.length_cons] at hlen
        show rm :: ccExecGo f' false rest = rm :: ccExecGo g' false rest
        rw [ih f' g' false rest (by omega) (by omega) (by omega)]
      | none =>
        show ccExecGo f' (isLineTerm c) t = ccExecGo g' (isLineTerm c) t
        rw [ih f' g' (isLineTerm c) t (by omega) (by omega) (by omega)]

theorem ccExecGo_skipline : ∀ (l : List Char), (∀ c ∈ l, isLineTerm c = false) →
    ∀ (f : Nat) (rest : List Char),
    ccExecGo (l.length + f) false (l ++ rest) = ccExecGo f false rest := by
  intro l
  induction l with
  | nil => intro _ f rest; simp
  | cons c t ih =>
    intro hnl f rest
    have hc : isLineTerm c = false := hnl c (by simp)
    have harith : (c :: t).length + f = (t.length + f) + 1 := by
      simp [List.length_cons]
      omega
    have hstep : ccExecGo ((t.length + f) + 1) false ((c :: t) ++ rest) =
        ccExecGo (t.length + f) (isLineTerm c) (t ++ rest) := by
      rw [List.cons_append]
      rfl
    rw [harith, hstep, hc]
    exact ih (fun x hx => hnl x (by simp [hx])) f rest

/-- The claim's notion of a syntactically valid conventional-commit line: the
pattern matches at the line start with a visibly nonempty description. -/
def lineOK (l : List Char) : Bool :=
  match ccMatchAt l with
  | some (rm, _) => !(jsTrimList rm.desc).isEmpty
  | none => false

/-- A whitespace-only (possibly empty) line. -/
def wsOnly (l : List Char) : Bool := l.all isJsWs

/-- The raw match of a valid line. -/
def lineRaw (l : List Char) : RawCC :=
  match ccMatchAt l with
  | some (rm, _) => rm
  | none => { ctype := [], scope := none, bang := false, desc := [] }

theorem ccExecGo_start_match {f : Nat} {cs : List Char} {rm : RawCC} {rest : List Char}
    (hm : ccMatchAt cs = some (rm, rest)) :
    ccExecGo (f + 1) true cs = rm :: ccExecGo f false rest := by
  simp [ccExecGo, hm]

theorem ccExecGo_start_none {f : Nat} {c : Char} {t : List Char}
    (hm : ccMatchAt (c :: t) = none) :
    ccExecGo (f + 1) true (c :: t) = ccExecGo f (isLineTerm c) t := by
  simp [ccExecGo, hm]

theorem ccMatchAt_cons_nonword {c : Char} {t : List Char} (h : isWordChar c = false) :
    ccMatchAt (c :: t) = none := by
  rw [ccMatchAt, if_pos]
  rw [List.takeWhile_cons_of_neg (by simp [h])]
  rfl

theorem ccMatchAt_ws {l : List Char} (h : wsOnly l = true) : ccMatchAt l = none := by
  cases l with
  | nil => rfl
  | cons c t =>
    rw [wsOnly] at h
    simp only [List.all_cons, Bool.and_eq_true] at h
    exact ccMatchAt_cons_nonword (jsWs_not_word h.1)

theorem lineOK_of_ws {l : List Char} (h : wsOnly l = true) : lineOK l = false := by
  rw [lineOK, ccMatchAt_ws h]

theorem ccExec_joinLines : ∀ (lines : List (List Char)),
    (∀ l ∈ lines, ∀ c ∈ l, isLineTerm c = false) →
    (∀ l ∈ lines, lineOK l = true ∨ wsOnly l = true) →
    ccExec (joinLines lines) = (lines.filter lineOK).map lineRaw := by
  intro lines
  induction lines with
  | nil => intro _ _; rfl
  | cons l ls ih =>
    intro h1 h2
    have hlnl : ∀ c ∈ l, isLineTerm c = false := h1 l (by simp)
    cases ls with
    | nil =>
      rcases h2 l (by simp) with hok | hws
      · have hok' := hok
        rw [lineOK] at hok'
        cases hm : ccMatchAt l with
        | none => rw [hm] at hok'; simp at hok'
        | some pr =>
          obtain ⟨rm, rem⟩ := pr
          rw [hm] at hok'
          have hline := ccMatchAt_line hm hlnl (by simpa using hok')
          rw [hline.1] at hm
          show ccExec l = _
          rw [ccExec, ccExecGo_start_match hm, ccExecGo_nil]
          simp [List.filter_cons, hok, lineRaw, hm]
      · have hfl := lineOK_of_ws hws
        have hm := ccMatchAt_ws hws
        show ccExec l = _
        cases l with
        | nil => simp [hfl]; rfl
        | cons c t =>
          rw [ccExec]
          have hfuel : (c :: t).length + 1 = (t.length + 1) + 1 := by simp
          rw [hfuel, ccExecGo_start_none hm]
          rw [show isLineTerm c = false from hlnl c (by simp)]
          have hskip := ccExecGo_skipline t
            (fun x hx => hlnl x (by simp [hx])) 1 []
          rw [List.append_nil] at hskip
          rw [hskip, ccExecGo_nil]
          simp [hfl]
    | cons l2 ls2 =>
      have hrest1 : ∀ x ∈ l2 :: ls2, ∀ c ∈ x, isLineTerm c = false :=
        fun x hx => h1 x (by simp [hx])
      have hrest2 : ∀ x ∈ l2 :: ls2, lineOK x = true ∨ wsOnly x = true :=
        fun x hx => h2 x (by simp [hx])
      have ihr := ih hrest1 hrest2
      have hjoin : joinLines (l :: l2 :: ls2) = l ++ '\n' :: joinLines (l2 :: ls2) :=
        joinLines_cons_of_ne l (by simp)
      rcases h2 l (by simp) with hok | hws
      · have hok' := hok
        rw [lineOK] at hok'
        cases hm : ccMatchAt l with
        | none => rw [hm] at hok'; simp at hok'
        | some pr =>
          obtain ⟨rm, rem⟩ := pr
          rw [hm] at hok'
          have hline := ccMatchAt_line hm hlnl (by simpa using hok')
          rw [hjoin, ccExec]
          have hfuel : (l ++ '\n' :: joinLines (l2 :: ls2)).length + 1 =
              ((l.length + (joinLines (l2 :: ls2)).length + 1) + 1) := by
            simp
            omega
          rw [hfuel, ccExecGo_start_match (hline.2 (joinLines (l2 :: ls2)))]
          have hstep : ccExecGo ((l.length + (joinLines (l2 :: ls2)).length)+ 1) false
              ('\n' :: joinLines (l2 :: ls2)) =
              ccExecGo (l.length + (joinLines (l2 :: ls2)).length) true
                (joinLines (l2 :: ls2)) := rfl
          rw [hstep]
          rw [ccExecGo_congr (joinLines (l2 :: ls2)).length
            (l.length + (joinLines (l2 :: ls2)).length)
            ((joinLines (l2 :: ls2)).length + 1) true (joinLines (l2 :: ls2))
            le_rfl (by omega) (by omega)]
          rw [show ccExecGo ((joinLines (l2 :: ls2)).length + 1) true
            (joinLines (l2 :: ls2)) = ccExec (joinLines (l2 :: ls2)) from rfl]
          rw [ihr]
          simp [List.filter_cons, hok, lineRaw, hm]
      · have hfl := lineOK_of_ws hws
        rw [hjoin, ccExec]
        cases l with
        | nil =>
          have hm : ccMatchAt ('\n' :: joinLines (l2 :: ls2)) = none :=
            ccMatchAt_cons_nonword (by decide)
          have hfuel : (([] : List Char) ++ '\n' :: joinLines (l2 :: ls2)).length + 1 =
              ((joinLines (l2 :: ls2)).length + 1) + 1 := by simp
          rw [hfuel]
          rw [show (([] : List Char) ++ '\n' :: joinLines (l2 :: ls2)) =
            '\n' :: joinLines (l2 :: ls2) from rfl]
          rw [ccExecGo_start_none hm]
          rw [show isLineTerm '\n' = true by decide]
          rw [show ccExecGo ((joinLines (l2 :: ls2)).length + 1) true
            (joinLines (l2 :: ls2)) = ccExec (joinLines (l2 :: ls2)) from rfl]
          rw [ihr]
          simp [List.filter_cons, hfl]
        | cons c t =>
          have hm : ccMatchAt ((c :: t) ++ '\n' :: joinLines (l2 :: ls2)) = none := by
            have hcw : isJsWs c = true := by
              rw [wsOnly] at hws
              simp only [List.all_cons, Bool.and_eq_true] at hws
              exact hws.1
            exact ccMatchAt_cons_nonword (jsWs_not_word hcw)
          have hfuel : ((c :: t) ++ '\n' :: joinLines (l2 :: ls2)).length + 1 =
              ((t.length + ((joinLines (l2 :: ls2)).length + 2)) + 1) := by
            simp
            omega
          rw [hfuel]
          rw [show ((c :: t) ++ '\n' :: joinLines (l2 :: ls2)) =
            c :: (t ++ '\n' :: joinLines (l2 :: ls2)) from rfl] at hm ⊢
          rw [ccExecGo_start_none hm]
          rw [show isLineTerm c = false from hlnl c (by simp)]
          rw [ccExecGo_skipline t (fun x hx => hlnl x (by simp [hx]))
            ((joinLines (l2 :: ls2)).length + 2) ('\n' :: joinLines (l2 :: ls2))]
          rw [show ccExecGo ((joinLines (l2 :: ls2)).length + 2) false
              ('\n' :: joinLines (l2 :: ls2)) =
              ccExecGo ((joinLines (l2 :: ls2)).length + 1) true
                (joinLines (l2 :: ls2)) from rfl]
          rw [show ccExecGo ((joinLines (l2 :: ls2)).length + 1) true
            (joinLines (l2 :: ls2)) = ccExec (joinLines (l2 :: ls2)) from rfl]
          rw [ihr]
          simp [List.filter_cons, hfl]

theorem descStep_desc_ne {cs d rest : List Char} (h : descStep cs = some (d, rest)) :
    d ≠ [] := by
  rw [descStep] at h
  cases hdrop : cs.dropWhile isJsWs with
  | nil =>
    rw [hdrop] at h
    cases hrev : cs.reverse.dropWhile (fun x => isLineTerm x) with
    | nil => rw [hrev] at h; exact absurd h (by simp)
    | cons c u =>
      rw [hrev] at h
      injection h with h'
      injection h' with h1 h2
      rw [← h1]
      simp
  | cons c t =>
    rw [hdrop] at h
    injection h with h'
    injection h' with h1 h2
    rw [← h1]
    rw [List.takeWhile_cons_of_pos]
    · simp
    · have hcw : isJsWs c = false := by
        have := dropWhile_head_not (p := isJsWs) cs c (by rw [hdrop]; rfl)
        exact this
      have hlt : isLineTerm c = false := by
        cases hq : isLineTerm c with
        | false => rfl
        | true => rw [lineTerm_ws hq] at hcw; exact absurd hcw (by simp)
      simp [hlt]

theorem ccMatchAt_fields_ne {l : List Char} {rm : RawCC} {rem : List Char}
    (h : ccMatchAt l = some (rm, rem)) : rm.ctype ≠ [] ∧ rm.desc ≠ [] := by
  obtain ⟨r2, r4, hty, hct, hsc, hbang, hco, hde⟩ := ccMatchAt_inv h
  constructor
  · rw [hct]
    intro h0
    rw [h0] at hty
    simp at hty
  · exact descStep_desc_ne hde

theorem filterMap_eq_map_of_all {α β : Type} (f : α → Option β) (g : α → β) :
    ∀ (L : List α), (∀ x ∈ L, f x = some (g x)) → L.filterMap f = L.map g := by
  intro L
  induction L with
  | nil => intro _; rfl
  | cons x t ih =>
    intro hall
    rw [List.filterMap_cons, hall x (by simp), List.map_cons,
      ih (fun y hy => hall y (by simp [hy]))]

/-- C6 (amended): over a commit body whose lines are each either a
syntactically valid conventional-commit line or whitespace-only,
`extractConventionalCommitParts` returns exactly one record per valid line
in order, each carrying the given SHA and the matched description trimmed
with inner whitespace collapsed. -/
theorem c6_parser_line_records (lines : List String) (sha : String)
    (hnl : ∀ l ∈ lines, ∀ c ∈ l.data, isLineTerm c = false)
    (hok : ∀ l ∈ lines, lineOK l.data = true ∨ wsOnly l.data = true) :
    extractConventionalCommitParts ⟨joinLines (lines.map String.data)⟩ sha =
      (lines.filter (fun l => lineOK l.data)).map
        (fun l => mkPart (lineRaw l.data) sha) ∧
    (extractConventionalCommitParts ⟨joinLines (lines.map String.data)⟩ sha).length =
      (lines.filter (fun l => lineOK l.data)).length ∧
    ∀ part ∈ extractConventionalCommitParts ⟨joinLines (lines.map String.data)⟩ sha,
      part.sha = sha := by
  have hmain : extractConventionalCommitParts ⟨joinLines (lines.map String.data)⟩ sha =
      (lines.filter (fun l => lineOK l.data)).map
        (fun l => mkPart (lineRaw l.data) sha) := by
    rw [extractConventionalCommitParts]
    rw [show (⟨joinLines (lines.map String.data)⟩ : String).data =
      joinLines (lines.map String.data) from rfl]
    rw [ccExec_joinLines (lines.map String.data)
      (by intro l hl; simp at hl; obtain ⟨s, hs, rfl⟩ := hl; exact hnl s hs)
      (by intro l hl; simp at hl; obtain ⟨s, hs, rfl⟩ := hl; exact hok s hs)]
    rw [List.filterMap_map]
    have hfm : (lines.map String.data).filter lineOK =
        (lines.filter (fun l => lineOK l.data)).map String.data := by
      rw [List.filter_map]
      rfl
    rw [hfm, List.filterMap_map]
    apply filterMap_eq_map_of_all
    intro l hl
    have hvalid : lineOK l.data = true := by
      have := List.of_mem_filter hl
      simpa using this
    have hvalid' := hvalid
    rw [lineOK] at hvalid'
    cases hm : ccMatchAt l.data with
    | none => rw [hm] at hvalid'; simp at hvalid'
    | some pr =>
      obtain ⟨rm, rem⟩ := pr
      rw [hm] at hvalid'
      obtain ⟨hcne, hdne⟩ := ccMatchAt_fields_ne hm
      have hlr : lineRaw l.data = rm := by rw [lineRaw, hm]
      simp only [Function.comp, hlr]
      rw [if_pos]
      simp only [Bool.and_eq_true, Bool.not_eq_true']
      refine ⟨⟨by simpa using hcne, by simpa using hdne⟩, by simpa using hvalid'⟩
  refine ⟨hmain, by rw [hmain]; simp, ?_⟩
  intro part hp
  rw [hmain] at hp
  simp at hp
  obtain ⟨l, -, rfl⟩ := hp
  rfl

/-- C6 (witness): two valid lines separated by a whitespace-only line give
exactly the two corresponding records. -/
theorem c6_parser_line_records_witness :
    extractConventionalCommitParts
        ⟨joinLines (["feat: a", " ", "fix(x)!: b"].map String.data)⟩ "abc1234" =
      ((["feat: a", " ", "fix(x)!: b"].filter (fun l => lineOK l.data)).map
        (fun l => mkPart (lineRaw l.data) "abc1234")) :=
  (c6_parser_line_records ["feat: a", " ", "fix(x)!: b"] "abc1234"
    (by decide) (by decide)).1

/-- C6 (counterexample to the claim as stated): the body made of the two
lines `feat` and `: x` contains no syntactically valid conventional-commit
line, yet the parser returns one record, because the whitespace around the
colon lets a match span the newline. -/
theorem c6_counterexample :
    ((splitOnChar '\n' ("feat\n: x").data).filter lineOK).length = 0 ∧
    (extractConventionalCommitParts "feat\n: x" "abc1234").length = 1 :=
  ⟨rfl, rfl⟩

/- ### Reference-link reconciliation
(updateReferenceLinks of src/scripts/republish-changelog.ts) -/

/-- The regex of a caret, bracketed Unreleased label, colon, with the
case-insensitive flag: a case-insensitive literal line start. -/
def unreleasedLinkPred (ln : List Char) : Bool :=
  listStartsCI ln "[Unreleased]:".data

/-- The per-label regex (caret, bracketed escaped label, colon,
case-insensitive): since the label is regex-escaped it is a literal. -/
def labelLinkPred (label ln : List Char) : Bool :=
  listStartsCI ln ('[' :: label ++ "]:".data)

/-- The JS spread of a Set: first occurrences in order. -/
def dedupGo (seen : List (List Char)) : List (List Char) → List (List Char)
  | [] => []
  | x :: t => if x ∈ seen then dedupGo seen t else x :: dedupGo (x :: seen) t

/-- Deduplicate keeping first occurrences (`[...new Set(versionLabels)]`). -/
def dedupKeep (xs : List (List Char)) : List (List Char) := dedupGo [] xs

/-- The rewritten reference-link line for a label. -/
def labelLine (label target : List Char) : List Char :=
  '[' :: label ++ "]: ".data ++ target

/-- One iteration of the line loop: an Unreleased link line is replaced by
the new Unreleased line, a line matching the first of the label regexes is
replaced by that label's line, anything else is kept. -/
def mapRefLine (uniqueLabels : List (List Char)) (target uline ln : List Char) :
    List Char :=
  if unreleasedLinkPred ln then uline
  else
    match uniqueLabels.find? (fun label => labelLinkPred label ln) with
    | some label => labelLine label target
    | none => ln

/-- Whether some line's first matching label is `L` (membership in the
`foundLabels` set after the loop); lines taken by the Unreleased branch are
skipped by its `continue` before the label test. -/
def labelFound (uniqueLabels : List (List Char)) (lines : List (List Char))
    (L : List Char) : Bool :=
  lines.any (fun ln => !(unreleasedLinkPred ln) &&
    uniqueLabels.find? (fun lab => labelLinkPred lab ln) == some L)

/-- The result record of `updateReferenceLinks`. -/
structure UpdateReferenceLinksResult where
  changelog : String
  addedUnreleasedLink : Bool
  addedVersionLinks : List String
deriving Repr

/-- Embedding of `updateReferenceLinks`: split into lines, update matching
link lines in place, then append the Unreleased line when none was found and
a line for every label that no line matched. -/
def updateReferenceLinks (changelog : String) (versionLabels : List String)
    (linkTarget unreleasedLine : String) : UpdateReferenceLinksResult :=
  let lines := splitJsLines changelog.data
  let uniqueLabels := dedupKeep (versionLabels.map String.data)
  let target := linkTarget.data
  let uline := unreleasedLine.data
  let processed := lines.map (mapRefLine uniqueLabels target uline)
  let foundU := lines.any unreleasedLinkPred
  let missing := uniqueLabels.filter (fun L => !(labelFound uniqueLabels lines L))
  let updated := processed ++ (if foundU then [] else [uline]) ++
    missing.map (fun L => labelLine L target)
  { changelog := ⟨joinLines updated⟩,
    addedUnreleasedLink := !foundU,
    addedVersionLinks := missing.map (fun L => (⟨L⟩ : String)) }

/- ### Heading-block location
(the multiline heading/content regexes of src/scripts/republish-changelog.ts
and src/scripts/extract-changelog.ts) -/

/-- The lookahead alternative of a caret, two hashes and a whitespace
character. -/
def hhWsAt (cs : List Char) : Bool :=
  match cs with
  | '#' :: '#' :: c :: _ => isJsWs c
  | _ => false

/-- The lookahead alternative of a caret, a whitespace run (which may cross
line breaks), three dashes, more whitespace and a multiline end anchor: after
the dashes the whitespace run must contain a line terminator or reach the
end of input. -/
def dashRuleAt (cs : List Char) : Bool :=
  let r1 := cs.dropWhile isJsWs
  if listStarts r1 "---".data then
    let r3 := r1.drop 3
    (r3.takeWhile isJsWs).any isLineTerm || (r3.dropWhile isJsWs).isEmpty
  else false

/-- The content group's lookahead: a following heading, a horizontal rule, or
the absolute end of input. -/
def isTerminatorAt (cs : List Char) : Bool := hhWsAt cs || dashRuleAt cs

/-- Split the lazily matched content group from the rest: consume until the
first line start satisfying the lookahead (or the end of input). -/
def contentSplitGo : Bool → List Char → (List Char × List Char)
  | atStart, cs =>
    if atStart && isTerminatorAt cs then ([], cs)
    else
      match cs with
      | [] => ([], [])
      | c :: t =>
        let p := contentSplitGo (isLineTerm c) t
        (c :: p.1, p.2)

/-- Scan multiline caret positions for the first line start where the
heading matcher succeeds; returns the offset of the match and the rest of
the input after the heading line. -/
def findHeadGo (tryHead : List Char → Option (List Char)) :
    Bool → List Char → Option (Nat × List Char)
  | atStart, cs =>
    (if atStart then tryHead cs else none).elim
      (match cs with
       | [] => none
       | c :: t => (findHeadGo tryHead (isLineTerm c) t).map
          (fun nr => (nr.1 + 1, nr.2)))
      (fun rest => some (0, rest))

/-- The pieces of a matched heading block: text before the match, the
heading-line group, the content group, and the text from the lookahead
position on. -/
structure BlockParts where
  before : List Char
  hdr : List Char
  content : List Char
  after : List Char
deriving Repr

/-- Locate a heading block: first matching line start, then the lazy content
group up to the lookahead. -/
def findBlock (tryHead : List Char → Option (List Char)) (doc : List Char) :
    Option BlockParts :=
  match findHeadGo tryHead true doc with
  | none => none
  | some (n, rest) =>
    let p := contentSplitGo true rest
    some { before := doc.take n,
           hdr := (doc.drop n).take ((doc.length - n) - rest.length),
           content := p.1,
           after := p.2 }

/-- The lazy junk group of non-newline characters before the two hashes:
try the heading tail at the first hashes position, resuming at later
positions of the same line on failure. -/
def junkGo (headTail : List Char → Option (List Char)) : List Char → Option (List Char)
  | [] => none
  | c :: t =>
    match (if listStarts (c :: t) "##".data then headTail ((c :: t).drop 2) else none) with
    | some rest => some rest
    | none => if c = '\n' then none else junkGo headTail t

/-- After the two hashes of the Unreleased heading: whitespace (the starred
whitespace may cross line breaks), an optional bracket, the case-insensitive
word Unreleased, an optional closing bracket, the rest of the line, and a
newline. -/
def unreleasedHeadTail (cs : List Char) : Option (List Char) :=
  let r1 := cs.dropWhile isJsWs
  let r2 := if r1.head? = some '[' then r1.tail else r1
  if listStartsCI r2 "Unreleased".data then
    let r3 := r2.drop 10
    let r4 := if r3.head? = some ']' then r3.tail else r3
    match r4.dropWhile (fun c => !(c = '\n')) with
    | '\n' :: r6 => some r6
    | _ => none
  else none

/-- After the two hashes of the extractor's version heading: whitespace, an
optional bracket, one of the two case-sensitive labels (the v-prefixed one
first), an optional closing bracket, the rest of the line, an optional
carriage return and a newline. -/
def versionHeadTail (labels : List (List Char)) (cs : List Char) : Option (List Char) :=
  let r1 := cs.dropWhile isJsWs
  let r2 := if r1.head? = some '[' then r1.tail else r1
  match labels.find? (fun lab => listStarts r2 lab) with
  | none => none
  | some lab =>
    let r3 := r2.drop lab.length
    let r4 := if r3.head? = some ']' then r3.tail else r3
    let r5 := r4.dropWhile (fun c => !(c = '\n'))
    if r5.head? = some '\n' then some r5.tail else none

/-- Embedding of the `unreleasedBlock` regex of republish-changelog.ts. -/
def findUnreleasedBlock (doc : List Char) : Option BlockParts :=
  findBlock (junkGo unreleasedHeadTail) doc

/-- The `findExistingVersionHeading` regex at one line start: two hashes,
whitespace, a required bracket, a case-insensitive optional v, the escaped
normalized version (case-insensitively), and a closing bracket; the captured
label keeps the document's own characters. -/
def existingHeadingAt (escX : List Char) (cs : List Char) : Option (List Char) :=
  if listStarts cs "##".data then
    let r1 := (cs.drop 2).dropWhile isJsWs
    match r1 with
    | '[' :: r2 =>
      let withV : Option (List Char) :=
        match r2 with
        | c :: r3 =>
          if asciiLower c = 'v' && listStartsCI r3 escX &&
              ((r3.drop escX.length).head? == some ']') then
            some (c :: r3.take escX.length)
          else none
        | [] => none
      match withV with
      | some lab => some lab
      | none =>
        if listStartsCI r2 escX && ((r2.drop escX.length).head? == some ']') then
          some (r2.take escX.length)
        else none
    | _ => none
  else none

/-- Scan line starts for the first success of a matcher. -/
def scanLineStarts {α : Type} (try1 : List Char → Option α) :
    Bool → List Char → Option α
  | atStart, cs =>
    match (if atStart then try1 cs else none) with
    | some a => some a
    | none =>
      match cs with
      | [] => none
      | c :: t => scanLineStarts try1 (isLineTerm c) t

/-- Embedding of `findExistingVersionHeading`. -/
def findExistingVersionHeading (doc : List Char) (normX : List Char) :
    Option (List Char) :=
  scanLineStarts (existingHeadingAt normX) true doc

/-- One attempt of the `getFirstVersionHeading` regex: two hashes,
whitespace, a bracketed lazily matched label on one line; labels that trim
to nothing or to the word unreleased are rejected (the loop continues). -/
def firstHeadingAt (cs : List Char) : Option (List Char) :=
  if listStarts cs "##".data then
    let r1 := (cs.drop 2).dropWhile isJsWs
    match r1 with
    | '[' :: r2 =>
      let lab := r2.takeWhile (fun c => !(c = ']') && !(isLineTerm c))
      if (r2.drop lab.length).head? == some ']' then
        let labT := jsTrimList lab
        if labT.isEmpty then none
        else if lowerList labT = "unreleased".data then none
        else some labT
      else none
    | _ => none
  else none

/-- Embedding of `getFirstVersionHeading`. -/
def getFirstVersionHeading (doc : List Char) : Option (List Char) :=
  scanLineStarts firstHeadingAt true doc

/-- After the two hashes of the `versionEntryRegex` heading: whitespace, an
optional bracket, a case-insensitive optional v and the escaped normalized
version, an optional closing bracket, the rest of the line and a newline. -/
def versionEntryHead (escX : List Char) (cs : List Char) : Option (List Char) :=
  if listStarts cs "##".data then
    let r1 := (cs.drop 2).dropWhile isJsWs
    let r2 := if r1.head? = some '[' then r1.tail else r1
    let afterLabel : Option (List Char) :=
      match r2 with
      | c :: r3 =>
        if asciiLower c = 'v' && listStartsCI r3 escX then some (r3.drop escX.length)
        else if listStartsCI r2 escX then some (r2.drop escX.length)
        else none
      | [] => none
    match afterLabel with
    | none => none
    | some r4 =>
      let r5 := if r4.head? = some ']' then r4.tail else r4
      match r5.dropWhile (fun c => !(c = '\n')) with
      | '\n' :: r7 => some r7
      | _ => none
  else none

/- ### Promotion
(republishChangelog of src/scripts/republish-changelog.ts). The file
system, logging and git dependencies are abstracted: the changelog text,
the date and the repository URL are arguments and the text written back is
the return value. JS replace substitutes dollar patterns occurring in the
replacement string; the embedding concatenates the replacement verbatim,
which agrees with the source whenever the reused heading text contains no
dollar sign. -/

/-- Embedding of `inferVersionHeadingLabel`. -/
def inferVersionHeadingLabel (versionInput normalizedVersion : String)
    (changelog : List Char) : List Char :=
  match getFirstVersionHeading changelog with
  | some firstHeading =>
    if (match firstHeading.head? with
        | some c => asciiLower c == 'v'
        | none => false) then
      'v' :: normalizedVersion.data
    else normalizedVersion.data
  | none =>
    if listStarts (lowerList (jsTrimList versionInput.data)) ['v'] then
      'v' :: normalizedVersion.data
    else normalizedVersion.data

/-- The link target and Unreleased reference line chosen from the
repository URL. -/
def linkStrings (repoUrl tag : String) : String × String :=
  if strContains repoUrl "github.com" then
    (repoUrl ++ "/releases/tag/" ++ tag,
     "[Unreleased]: " ++ repoUrl ++ "/compare/" ++ tag ++ "...HEAD")
  else if strContains repoUrl "gitlab" then
    (repoUrl ++ "/-/tags/" ++ tag,
     "[Unreleased]: " ++ repoUrl ++ "/-/compare/" ++ tag ++ "...HEAD")
  else
    (repoUrl, "[Unreleased]: " ++ repoUrl)

/-- Embedding of `republishChangelog`: thrown errors become `Except.error`
and the text written back becomes the `Except.ok` value; the early return
when the version exists and Unreleased is empty writes nothing, so it
returns the input text. -/
def republishChangelog (version changelog date repoUrl : String) :
    Except String String :=
  match validateAndNormalizeSemver version with
  | Except.error e => Except.error e
  | Except.ok normalizedVersion =>
    let tag : String := if version.data.head? == some 'v' then version
                        else "v" ++ normalizedVersion
    match findUnreleasedBlock changelog.data with
    | none => Except.error "No [Unreleased] section found in CHANGELOG.md"
    | some blk =>
      let unreleasedContent := jsTrimList blk.content
      let existingHeadingLabel :=
        findExistingVersionHeading changelog.data normalizedVersion.data
      let versionExists := existingHeadingLabel.isSome
      let versionHeadingLabel :=
        existingHeadingLabel.getD
          (inferVersionHeadingLabel version normalizedVersion changelog.data)
      if versionExists && unreleasedContent.isEmpty then
        Except.ok changelog
      else if versionExists then
        let doc2 :=
          match findBlock (versionEntryHead normalizedVersion.data) changelog.data with
          | some vblk =>
            let step1 := vblk.before ++ vblk.hdr ++ '\n' ::
              (unreleasedContent ++ "\n\n".data) ++ vblk.after
            match findUnreleasedBlock step1 with
            | some ublk2 => ublk2.before ++ blk.hdr ++ '\n' :: ublk2.after
            | none => step1
          | none => changelog.data
        let ls := linkStrings repoUrl tag
        Except.ok (updateReferenceLinks ⟨doc2⟩
          [tag, ⟨versionHeadingLabel⟩] ls.1 ls.2).changelog
      else if unreleasedContent.isEmpty then
        Except.error "[Unreleased] section is empty. Use populate-unreleased-changelog.ts first or add content manually."
      else
        let newEntry := ('#' :: '#' :: ' ' :: '[' :: versionHeadingLabel ++ "] - ".data
            ++ date.data) ++ '\n' :: '\n' :: unreleasedContent ++ ['\n']
        let doc2 := blk.before ++ blk.hdr ++ '\n' :: newEntry ++ '\n' :: blk.after
        let ls := linkStrings repoUrl tag
        Except.ok (updateReferenceLinks ⟨doc2⟩
          [tag, ⟨versionHeadingLabel⟩] ls.1 ls.2).changelog

/- ### Extraction
(extractChangelog of src/scripts/extract-changelog.ts, with the changelog
file under its default name CHANGELOG.md and the text as an argument) -/

/-- Embedding of `extractChangelog`. -/
def extractChangelog (version changelog : String) : Except String String :=
  match validateAndNormalizeSemver version with
  | Except.error e => Except.error e
  | Except.ok normalizedVersion =>
    let versionLabels := ['v' :: normalizedVersion.data, normalizedVersion.data]
    let tag : String := if version.data.head? == some 'v' then version
                        else "v" ++ normalizedVersion
    (findBlock (junkGo (versionHeadTail versionLabels)) changelog.data).elim
      (Except.error ("No [v" ++ normalizedVersion ++ "] or [" ++ normalizedVersion ++
        "] section found in CHANGELOG.md"))
      (fun blk =>
        if (jsTrimList blk.content).isEmpty then
          Except.error ("No changelog entry found for " ++ tag)
        else
          Except.ok ("# Release " ++ tag ++ "\n\n" ++
            (⟨jsTrimList (blk.hdr ++ blk.content)⟩ : String)))

/- ### Population of the Unreleased section
(the document update of populateChangelog,
src/scripts/populate-unreleased-changelog.ts lines 235 to 252) -/

/-- The first index at which a pattern occurs (`String.indexOf`). -/
def findSubIdx : List Char → List Char → Option Nat
  | cs, pat =>
    if listStarts cs pat then some 0
    else
      match cs with
      | [] => none
      | _ :: t => (findSubIdx t pat).map (· + 1)

/-- The document update of `populateChangelog`: the locator regex is the
case-sensitive literal heading followed by a lazy body up to the next
literal heading start or the end of input; without a match the new section
is inserted after the first blank line, or appended. -/
def populateUpdateDoc (changelog unreleasedContent : String) : String :=
  let newSection := "## [Unreleased]\n\n" ++ unreleasedContent ++ "\n\n"
  let doc := changelog.data
  match findSubIdx doc "## [Unreleased]".data with
  | some i =>
    let rest := doc.drop (i + 15)
    let contentLen :=
      match findSubIdx rest "## [".data with
      | some j => j
      | none => rest.length
    ⟨doc.take i ++ newSection.data ++ rest.drop contentLen⟩
  | none =>
    match findSubIdx doc "\n\n".data with
    | some k => ⟨doc.take (k + 2) ++ newSection.data ++ doc.drop (k + 2)⟩
    | none =>
      let trimmed := jsTrimR doc
      ⟨trimmed ++ (if trimmed.isEmpty then [] else "\n\n".data) ++ newSection.data⟩

/-- The full document update of `populateChangelog` from the git log text:
the parsed commits, or the placeholder when they trim to nothing. -/
def populateChangelogDoc (gitOutput repoUrl changelog : String) : String :=
  let commits := parseCommitsWithMultiplePrefixes gitOutput repoUrl
  let unreleasedContent :=
    if (jsTrimList commits.data).isEmpty then "No changes yet." else commits
  populateUpdateDoc changelog unreleasedContent

/- ### C3: reference-link reconciliation counts -/

theorem splitJsLines_ne_nil (cs : List Char) : splitJsLines cs ≠ [] := by
  rw [splitJsLines.eq_def]
  split
  · simp
  · simp
  · simp
  · split <;> simp

theorem splitJsLines_cons_gen (c : Char) (t : List Char) (h1 : ¬ c = '\n')
    (h2 : ∀ u, ¬ (c = '\r' ∧ t = '\n' :: u)) :
    splitJsLines (c :: t) =
      match splitJsLines t with
      | [] => [[c]]
      | l :: ls => (c :: l) :: ls := by
  rw [splitJsLines.eq_def]
  split
  · simp_all
  · exfalso
    rename_i u heq
    injection heq with hc ht
    exact h2 u ⟨hc, ht⟩
  · simp_all
  · simp_all

theorem splitJsLines_cons_ne (c : Char) (t : List Char) (h1 : ¬ c = '\n') (h2 : ¬ c = '\r') :
    splitJsLines (c :: t) =
      match splitJsLines t with
      | [] => [[c]]
      | l :: ls => (c :: l) :: ls :=
  splitJsLines_cons_gen c t h1 (fun _ hu => h2 hu.1)

theorem splitJsLines_clean_append (l rest : List Char)
    (h : ∀ c ∈ l, ¬ c = '\n' ∧ ¬ c = '\r') :
    splitJsLines (l ++ '\n' :: rest) = l :: splitJsLines rest := by
  induction l with
  | nil => rfl
  | cons c t ih =>
    have hc := h c (List.mem_cons_self c t)
    rw [List.cons_append, splitJsLines_cons_ne c _ hc.1 hc.2,
      ih (fun x hx => h x (List.mem_cons_of_mem c hx))]

theorem splitJsLines_clean (l : List Char) (h : ∀ c ∈ l, ¬ c = '\n' ∧ ¬ c = '\r') :
    splitJsLines l = [l] := by
  induction l with
  | nil => rfl
  | cons c t ih =>
    have hc := h c (List.mem_cons_self c t)
    rw [splitJsLines_cons_ne c t hc.1 hc.2,
      ih (fun x hx => h x (List.mem_cons_of_mem c hx))]

theorem splitJsLines_joinLines (ls : List (List Char)) (hne : ls ≠ [])
    (h : ∀ l ∈ ls, ∀ c ∈ l, ¬ c = '\n' ∧ ¬ c = '\r') :
    splitJsLines (joinLines ls) = ls := by
  induction ls with
  | nil => exact absurd rfl hne
  | cons l t ih =>
    cases t with
    | nil => exact splitJsLines_clean l (h l (List.mem_cons_self _ _))
    | cons a b =>
      rw [joinLines_cons_of_ne l (by simp),
        splitJsLines_clean_append l _ (h l (List.mem_cons_self _ _)),
        ih (by simp) (fun x hx => h x (List.mem_cons_of_mem l hx))]

theorem splitJsLines_no_nl (cs : List Char) :
    ∀ l ∈ splitJsLines cs, ∀ c ∈ l, ¬ c = '\n' := by
  induction cs using splitJsLines.induct with
  | case1 => simp [splitJsLines]
  | case2 t ih =>
    intro l hl
    rcases List.mem_cons.mp (by simpa [splitJsLines] using hl) with h | h
    · simp [h]
    · exact ih l h
  | case3 t ih =>
    intro l hl
    rcases List.mem_cons.mp (by simpa [splitJsLines] using hl) with h | h
    · simp [h]
    · exact ih l h
  | case4 c t h1 h2 hnil ih => exact absurd hnil (splitJsLines_ne_nil t)
  | case5 c t h1 h2 l0 ls0 hsp ih =>
    rw [splitJsLines_cons_gen c t (by simpa using h2)
      (fun u hu => h1 u hu.1 hu.2), hsp]
    intro l hl x hx
    rcases List.mem_cons.mp hl with rfl | hmem
    · rcases List.mem_cons.mp hx with rfl | hxl
      · simpa using h2
      · exact ih l0 (hsp ▸ List.mem_cons_self _ _) x hxl
    · exact ih l (hsp ▸ List.mem_cons_of_mem _ hmem) x hx

theorem splitJsLines_subset (cs : List Char) :
    ∀ l ∈ splitJsLines cs, ∀ c ∈ l, c ∈ cs := by
  induction cs using splitJsLines.induct with
  | case1 => simp [splitJsLines]
  | case2 t ih =>
    intro l hl
    rcases List.mem_cons.mp (by simpa [splitJsLines] using hl) with h | h
    · simp [h]
    · intro c hc
      exact List.mem_cons_of_mem _ (List.mem_cons_of_mem _ (ih l h c hc))
  | case3 t ih =>
    intro l hl
    rcases List.mem_cons.mp (by simpa [splitJsLines] using hl) with h | h
    · simp [h]
    · intro c hc
      exact List.mem_cons_of_mem _ (ih l h c hc)
  | case4 c t h1 h2 hnil ih => exact absurd hnil (splitJsLines_ne_nil t)
  | case5 c t h1 h2 l0 ls0 hsp ih =>
    rw [splitJsLines_cons_gen c t (by simpa using h2)
      (fun u hu => h1 u hu.1 hu.2), hsp]
    intro l hl x hx
    rcases List.mem_cons.mp hl with rfl | hmem
    · rcases List.mem_cons.mp hx with rfl | hxl
      · exact List.mem_cons_self _ _
      · exact List.mem_cons_of_mem _ (ih l0 (hsp ▸ List.mem_cons_self _ _) x hxl)
    · exact List.mem_cons_of_mem _ (ih l (hsp ▸ List.mem_cons_of_mem _ hmem) x hx)

theorem listStartsLower_append (L : List Char) {u v : List Char}
    (h : listStarts (lowerList u) (lowerList v) = true) :
    listStarts (lowerList (L ++ u)) (lowerList (L ++ v)) = true := by
  induction L with
  | nil => exact h
  | cons c t ih => simpa [lowerList, listStarts] using ih

theorem labelLinkPred_labelLine_self (L target : List Char) :
    labelLinkPred L (labelLine L target) = true := by
  have hin : listStarts (lowerList ("]: ".data ++ target)) (lowerList "]:".data) = true := by
    show listStarts (lowerList (']' :: ':' :: ' ' :: target)) (lowerList [']', ':']) = true
    simp [lowerList, listStarts]
  have hmain := listStartsLower_append L hin
  show listStarts (lowerList ('[' :: (L ++ "]: ".data ++ target)))
    (lowerList ('[' :: (L ++ "]:".data))) = true
  rw [List.append_assoc]
  simpa [lowerList, listStarts] using hmain

theorem dedupGo_mem (xs : List (List Char)) : ∀ (seen : List (List Char)) (y : List Char),
    y ∈ dedupGo seen xs ↔ (y ∈ xs ∧ y ∉ seen) := by
  induction xs with
  | nil => intro seen y; simp [dedupGo]
  | cons x t ih =>
    intro seen y
    by_cases hx : x ∈ seen
    · simp only [dedupGo, if_pos hx]
      rw [ih]
      constructor
      · rintro ⟨h1, h2⟩; exact ⟨List.mem_cons_of_mem _ h1, h2⟩
      · rintro ⟨h1, h2⟩
        rcases List.mem_cons.mp h1 with rfl | h1
        · exact absurd hx h2
        · exact ⟨h1, h2⟩
    · simp only [dedupGo, if_neg hx]
      constructor
      · intro h
        rcases List.mem_cons.mp h with rfl | h
        · exact ⟨List.mem_cons_self _ _, hx⟩
        · have := (ih _ y).mp h
          exact ⟨List.mem_cons_of_mem _ this.1,
            fun hy => this.2 (List.mem_cons_of_mem _ hy)⟩
      · rintro ⟨h1, h2⟩
        rcases List.mem_cons.mp h1 with rfl | h1
        · exact List.mem_cons_self _ _
        · by_cases hyx : y = x
          · subst hyx; exact List.mem_cons_self _ _
          · refine List.mem_cons_of_mem _ ((ih _ y).mpr ⟨h1, ?_⟩)
            intro hy
            rcases List.mem_cons.mp hy with h | h
            · exact hyx h
            · exact h2 h

theorem dedupGo_nodup (xs : List (List Char)) :
    ∀ seen : List (List Char), (dedupGo seen xs).Nodup := by
  induction xs with
  | nil => intro seen; simp [dedupGo]
  | cons x t ih =>
    intro seen
    by_cases hx : x ∈ seen
    · simpa [dedupGo, hx] using ih seen
    · simp only [dedupGo, if_neg hx]
      refine List.nodup_cons.mpr ⟨?_, ih _⟩
      intro hmem
      exact ((dedupGo_mem t _ x).mp hmem).2 (List.mem_cons_self _ _)

theorem dedupKeep_mem (xs : List (List Char)) (y : List Char) :
    y ∈ dedupKeep xs ↔ y ∈ xs := by
  simp [dedupKeep, dedupGo_mem]

theorem dedupKeep_nodup (xs : List (List Char)) : (dedupKeep xs).Nodup :=
  dedupGo_nodup xs []

theorem length_filter_map_eq {α β : Type} (p : β → Bool) (f : α → β) (ls : List α) :
    ((ls.map f).filter p).length = (ls.filter (fun x => p (f x))).length := by
  induction ls with
  | nil => rfl
  | cons a t ih =>
    by_cases h : p (f a) = true <;>
      simp [List.filter_cons, h, ih]

theorem filter_eq_length_nodup (xs : List (List Char)) (h : xs.Nodup) (a : List Char) :
    (xs.filter (fun x => x == a)).length = if a ∈ xs then 1 else 0 := by
  induction xs with
  | nil => simp
  | cons x t ih =>
    rcases List.nodup_cons.mp h with ⟨hx, ht⟩
    by_cases hxa : x = a
    · subst hxa
      have h0 : (t.filter (fun y => y == x)).length = 0 := by
        rw [ih ht, if_neg hx]
      simp [List.filter_cons, h0]
    · have hax : ¬ a = x := fun hh => hxa hh.symm
      have hb : (x == a) = false := beq_eq_false_iff_ne.mpr hxa
      simp [List.filter_cons, hb, ih ht, List.mem_cons, hax]

theorem length_filter_eq_one_of_any (p : List Char → Bool) (ls : List (List Char))
    (hle : (ls.filter p).length ≤ 1) (hany : ls.any p = true) :
    (ls.filter p).length = 1 := by
  rcases List.any_eq_true.mp hany with ⟨x, hx, hpx⟩
  have hmem : x ∈ ls.filter p := List.mem_filter.mpr ⟨hx, hpx⟩
  have hpos : 0 < (ls.filter p).length := List.length_pos_of_mem hmem
  omega

theorem length_filter_eq_zero_of_not_any (p : List Char → Bool) (ls : List (List Char))
    (hany : ls.any p = false) :
    (ls.filter p).length = 0 := by
  rw [List.length_eq_zero, List.filter_eq_nil_iff]
  intro a ha hpa
  rw [List.any_eq_false] at hany
  exact hany a ha hpa

theorem mapRefLine_u (uniq : List (List Char)) (target uline ln : List Char)
    (hu1 : unreleasedLinkPred uline = true)
    (hu2 : ∀ L ∈ uniq, unreleasedLinkPred (labelLine L target) = false) :
    unreleasedLinkPred (mapRefLine uniq target uline ln) = unreleasedLinkPred ln := by
  unfold mapRefLine
  by_cases h : unreleasedLinkPred ln = true
  · rw [if_pos h, hu1, h]
  · rw [if_neg h]
    have h' : unreleasedLinkPred ln = false := by simpa using h
    cases hf : uniq.find? (fun label => labelLinkPred label ln) with
    | none => rfl
    | some L => rw [hu2 L (List.mem_of_find?_eq_some hf), h']

theorem mapRefLine_lab (uniq : List (List Char)) (target uline ln L : List Char)
    (hL : L ∈ uniq)
    (hu3 : labelLinkPred L uline = false)
    (hu4 : ∀ M ∈ uniq, ¬ L = M → labelLinkPred L (labelLine M target) = false) :
    labelLinkPred L (mapRefLine uniq target uline ln)
      = (!(unreleasedLinkPred ln) &&
        (uniq.find? (fun lab => labelLinkPred lab ln) == some L)) := by
  unfold mapRefLine
  by_cases h : unreleasedLinkPred ln = true
  · rw [if_pos h, hu3, h]; rfl
  · rw [if_neg h]
    have h' : unreleasedLinkPred ln = false := by simpa using h
    rw [h']
    cases hf : uniq.find? (fun lab => labelLinkPred lab ln) with
    | none =>
      have h0 : labelLinkPred L ln = false := by
        have := List.find?_eq_none.mp hf L hL
        simpa using this
      rw [h0]; rfl
    | some M =>
      by_cases hLM : L = M
      · subst hLM
        rw [labelLinkPred_labelLine_self]
        simp
      · rw [hu4 M (List.mem_of_find?_eq_some hf) hLM]
        have hbeq : (some M == some L) = false := by
          apply beq_eq_false_iff_ne.mpr
          intro hh
          exact hLM (by injection hh with h2; exact h2.symm)
        rw [hbeq]; rfl


theorem uPred_count (lines uniq : List (List Char)) (target uline : List Char)
    (hu1 : unreleasedLinkPred uline = true)
    (hu2 : ∀ L ∈ uniq, unreleasedLinkPred (labelLine L target) = false)
    (hcount1 : (lines.filter unreleasedLinkPred).length ≤ 1) :
    ((lines.map (mapRefLine uniq target uline)
      ++ (if lines.any unreleasedLinkPred then [] else [uline])
      ++ (uniq.filter (fun M => !(labelFound uniq lines M))).map
          (fun M => labelLine M target)).filter unreleasedLinkPred).length = 1 := by
  rw [List.filter_append, List.filter_append, List.length_append, List.length_append]
  have h1 : ((lines.map (mapRefLine uniq target uline)).filter unreleasedLinkPred).length
      = (lines.filter unreleasedLinkPred).length := by
    rw [length_filter_map_eq]
    congr 1
    exact List.filter_congr (fun ln _ => mapRefLine_u uniq target uline ln hu1 hu2)
  have h3 : (((uniq.filter (fun M => !(labelFound uniq lines M))).map
      (fun M => labelLine M target)).filter unreleasedLinkPred).length = 0 := by
    rw [length_filter_map_eq, List.length_eq_zero, List.filter_eq_nil_iff]
    intro M hM
    rw [hu2 M (List.mem_filter.mp hM).1]
    simp
  cases hany : lines.any unreleasedLinkPred with
  | true =>
    rw [h1, length_filter_eq_one_of_any _ _ hcount1 hany, h3]
    simp
  | false =>
    rw [h1, length_filter_eq_zero_of_not_any _ _ hany, h3]
    simp [hu1]

theorem labPred_count (lines uniq : List (List Char)) (target uline L : List Char)
    (hL : L ∈ uniq) (hnd : uniq.Nodup)
    (hu3 : labelLinkPred L uline = false)
    (hu4 : ∀ M ∈ uniq, ¬ L = M → labelLinkPred L (labelLine M target) = false)
    (hcount2 : (lines.filter (fun ln => !(unreleasedLinkPred ln) &&
        (uniq.find? (fun lab => labelLinkPred lab ln) == some L))).length ≤ 1) :
    ((lines.map (mapRefLine uniq target uline)
      ++ (if lines.any unreleasedLinkPred then [] else [uline])
      ++ (uniq.filter (fun M => !(labelFound uniq lines M))).map
          (fun M => labelLine M target)).filter (labelLinkPred L)).length = 1 := by
  rw [List.filter_append, List.filter_append, List.length_append, List.length_append]
  have h1 : ((lines.map (mapRefLine uniq target uline)).filter (labelLinkPred L)).length
      = (lines.filter (fun ln => !(unreleasedLinkPred ln) &&
          (uniq.find? (fun lab => labelLinkPred lab ln) == some L))).length := by
    rw [length_filter_map_eq]
    congr 1
    exact List.filter_congr (fun ln _ => mapRefLine_lab uniq target uline ln L hL hu3 hu4)
  have h2 : ((if lines.any unreleasedLinkPred then ([] : List (List Char))
      else [uline]).filter (labelLinkPred L)).length = 0 := by
    cases lines.any unreleasedLinkPred <;> simp [hu3]
  have h3 : (((uniq.filter (fun M => !(labelFound uniq lines M))).map
      (fun M => labelLine M target)).filter (labelLinkPred L)).length
      = if labelFound uniq lines L = false then 1 else 0 := by
    rw [length_filter_map_eq]
    have hcongr : ∀ M ∈ uniq.filter (fun M => !(labelFound uniq lines M)),
        labelLinkPred L (labelLine M target) = (M == L) := by
      intro M hM
      by_cases hml : M = L
      · subst hml; simp [labelLinkPred_labelLine_self]
      · rw [hu4 M (List.mem_filter.mp hM).1 (fun hh => hml hh.symm)]
        exact (beq_eq_false_iff_ne.mpr hml).symm
    rw [List.filter_congr hcongr,
      filter_eq_length_nodup _ (List.Nodup.filter _ hnd) L]
    by_cases hlf : labelFound uniq lines L = false
    · rw [if_pos (List.mem_filter.mpr ⟨hL, by rw [hlf]; rfl⟩), if_pos hlf]
    · rw [if_neg ?_, if_neg hlf]
      intro hmem
      have hh := (List.mem_filter.mp hmem).2
      simp only [Bool.not_eq_true'] at hh
      exact hlf hh
  have hlf_any : labelFound uniq lines L = lines.any (fun ln => !(unreleasedLinkPred ln)
      && (uniq.find? (fun lab => labelLinkPred lab ln) == some L)) := rfl
  rw [h1, h2, h3]
  cases hany : lines.any (fun ln => !(unreleasedLinkPred ln) &&
      (uniq.find? (fun lab => labelLinkPred lab ln) == some L)) with
  | true =>
    rw [length_filter_eq_one_of_any _ _ hcount2 hany,
      if_neg (by rw [hlf_any, hany]; simp)]
  | false =>
    rw [length_filter_eq_zero_of_not_any _ _ hany, if_pos (by rw [hlf_any, hany])]

/-- C3 (amended): for every document with at most one Unreleased link line
and at most one link line first-matching each candidate label, and candidate
labels whose rewritten lines collide neither with the Unreleased line nor
with each other, `updateReferenceLinks` produces exactly one Unreleased link
line and exactly one link line per candidate label; the Unreleased line and
a label's line are appended exactly when no input line matched them (update
in place takes priority over append).  The original claim's unconditional
uniqueness fails: see the counterexample. -/
theorem c3_reference_link_uniqueness
    (changelog : String) (versionLabels : List String) (linkTarget unreleasedLine : String)
    (hclean : ∀ c ∈ changelog.data, ¬ c = '\r')
    (hcleanT : ∀ c ∈ linkTarget.data, ¬ c = '\n' ∧ ¬ c = '\r')
    (hcleanU : ∀ c ∈ unreleasedLine.data, ¬ c = '\n' ∧ ¬ c = '\r')
    (hcleanL : ∀ L ∈ versionLabels, ∀ c ∈ L.data, ¬ c = '\n' ∧ ¬ c = '\r')
    (hu1 : unreleasedLinkPred unreleasedLine.data = true)
    (hu2 : ∀ L ∈ dedupKeep (versionLabels.map String.data),
      unreleasedLinkPred (labelLine L linkTarget.data) = false)
    (hu3 : ∀ L ∈ dedupKeep (versionLabels.map String.data),
      labelLinkPred L unreleasedLine.data = false)
    (hu4 : ∀ L ∈ dedupKeep (versionLabels.map String.data),
      ∀ M ∈ dedupKeep (versionLabels.map String.data), ¬ L = M →
      labelLinkPred L (labelLine M linkTarget.data) = false)
    (hcount1 : ((splitJsLines changelog.data).filter unreleasedLinkPred).length ≤ 1)
    (hcount2 : ∀ L ∈ dedupKeep (versionLabels.map String.data),
      ((splitJsLines changelog.data).filter (fun ln => !(unreleasedLinkPred ln) &&
        ((dedupKeep (versionLabels.map String.data)).find?
          (fun lab => labelLinkPred lab ln) == some L))).length ≤ 1) :
    (((splitJsLines (updateReferenceLinks changelog versionLabels linkTarget
        unreleasedLine).changelog.data).filter unreleasedLinkPred).length = 1)
    ∧ (∀ L ∈ dedupKeep (versionLabels.map String.data),
      ((splitJsLines (updateReferenceLinks changelog versionLabels linkTarget
        unreleasedLine).changelog.data).filter (labelLinkPred L)).length = 1)
    ∧ ((updateReferenceLinks changelog versionLabels linkTarget
        unreleasedLine).addedUnreleasedLink
      = !((splitJsLines changelog.data).any unreleasedLinkPred))
    ∧ (∀ L ∈ dedupKeep (versionLabels.map String.data),
      ((⟨L⟩ : String) ∈ (updateReferenceLinks changelog versionLabels linkTarget
        unreleasedLine).addedVersionLinks
        ↔ labelFound (dedupKeep (versionLabels.map String.data))
            (splitJsLines changelog.data) L = false)) := by
  have hsplit : (updateReferenceLinks changelog versionLabels linkTarget
      unreleasedLine).changelog.data
      = joinLines ((splitJsLines changelog.data).map
          (mapRefLine (dedupKeep (versionLabels.map String.data))
            linkTarget.data unreleasedLine.data)
        ++ (if (splitJsLines changelog.data).any unreleasedLinkPred then []
            else [unreleasedLine.data])
        ++ ((dedupKeep (versionLabels.map String.data)).filter
            (fun M => !(labelFound (dedupKeep (versionLabels.map String.data))
              (splitJsLines changelog.data) M))).map
            (fun M => labelLine M linkTarget.data)) := rfl
  have hcleanLab : ∀ M ∈ dedupKeep (versionLabels.map String.data),
      ∀ c ∈ labelLine M linkTarget.data, ¬ c = '\n' ∧ ¬ c = '\r' := by
    intro M hM c hc
    have hM' : M ∈ versionLabels.map String.data := (dedupKeep_mem _ M).mp hM
    rcases List.mem_map.mp hM' with ⟨V, hV, rfl⟩
    have hc' : c ∈ '[' :: ((V.data ++ "]: ".data) ++ linkTarget.data) := hc
    rcases List.mem_cons.mp hc' with rfl | hc2
    · exact ⟨by decide, by decide⟩
    · rcases List.mem_append.mp hc2 with h | h
      · rcases List.mem_append.mp h with h' | h'
        · exact hcleanL V hV c h'
        · have h'' : c ∈ [']', ':', ' '] := h'
          simp only [List.mem_cons, List.not_mem_nil, or_false] at h''
          rcases h'' with rfl | rfl | rfl <;> exact ⟨by decide, by decide⟩
      · exact hcleanT c h
  have hcleanLines : ∀ l ∈ splitJsLines changelog.data, ∀ c ∈ l,
      ¬ c = '\n' ∧ ¬ c = '\r' :=
    fun l hl c hc => ⟨splitJsLines_no_nl _ l hl c hc,
      hclean c (splitJsLines_subset _ l hl c hc)⟩
  have hcleanOut : ∀ l ∈ ((splitJsLines changelog.data).map
        (mapRefLine (dedupKeep (versionLabels.map String.data))
          linkTarget.data unreleasedLine.data)
      ++ (if (splitJsLines changelog.data).any unreleasedLinkPred then []
          else [unreleasedLine.data])
      ++ ((dedupKeep (versionLabels.map String.data)).filter
          (fun M => !(labelFound (dedupKeep (versionLabels.map String.data))
            (splitJsLines changelog.data) M))).map
          (fun M => labelLine M linkTarget.data)),
      ∀ c ∈ l, ¬ c = '\n' ∧ ¬ c = '\r' := by
    intro l hl
    rcases List.mem_append.mp hl with h | h
    · rcases List.mem_append.mp h with h2 | h2
      · rcases List.mem_map.mp h2 with ⟨ln, hln, rfl⟩
        unfold mapRefLine
        by_cases hU : unreleasedLinkPred ln = true
        · rw [if_pos hU]; exact hcleanU
        · rw [if_neg hU]
          cases hf : (dedupKeep (versionLabels.map String.data)).find?
              (fun lab => labelLinkPred lab ln) with
          | none => exact hcleanLines ln hln
          | some M => exact hcleanLab M (List.mem_of_find?_eq_some hf)
      · revert h2
        cases (splitJsLines changelog.data).any unreleasedLinkPred with
        | true => intro h2; exact absurd h2 (by simp)
        | false =>
          intro h2
          rcases List.mem_singleton.mp h2 with rfl
          exact hcleanU
    · rcases List.mem_map.mp h with ⟨M, hM, rfl⟩
      exact hcleanLab M (List.mem_filter.mp hM).1
  have houtne : ((splitJsLines changelog.data).map
        (mapRefLine (dedupKeep (versionLabels.map String.data))
          linkTarget.data unreleasedLine.data)
      ++ (if (splitJsLines changelog.data).any unreleasedLinkPred then []
          else [unreleasedLine.data])
      ++ ((dedupKeep (versionLabels.map String.data)).filter
          (fun M => !(labelFound (dedupKeep (versionLabels.map String.data))
            (splitJsLines changelog.data) M))).map
          (fun M => labelLine M linkTarget.data)) ≠ [] := by
    intro hh
    rcases List.append_eq_nil.mp hh with ⟨h1, _⟩
    rcases List.append_eq_nil.mp h1 with ⟨h2, _⟩
    exact splitJsLines_ne_nil changelog.data (List.map_eq_nil_iff.mp h2)
  have hround : splitJsLines (updateReferenceLinks changelog versionLabels linkTarget
      unreleasedLine).changelog.data
      = ((splitJsLines changelog.data).map
          (mapRefLine (dedupKeep (versionLabels.map String.data))
            linkTarget.data unreleasedLine.data)
        ++ (if (splitJsLines changelog.data).any unreleasedLinkPred then []
            else [unreleasedLine.data])
        ++ ((dedupKeep (versionLabels.map String.data)).filter
            (fun M => !(labelFound (dedupKeep (versionLabels.map String.data))
              (splitJsLines changelog.data) M))).map
            (fun M => labelLine M linkTarget.data)) := by
    rw [hsplit]
    exact splitJsLines_joinLines _ houtne hcleanOut
  refine ⟨?_, ?_, rfl, ?_⟩
  · rw [hround]
    exact uPred_count _ _ _ _ hu1 hu2 hcount1
  · intro L hL
    rw [hround]
    exact labPred_count _ _ _ _ L hL (dedupKeep_nodup _) (hu3 L hL) (hu4 L hL)
      (hcount2 L hL)
  · intro L hL
    constructor
    · intro hmem
      rcases List.mem_map.mp hmem with ⟨M, hM, hMk⟩
      have hML : M = L := congrArg String.data hMk
      subst hML
      have := (List.mem_filter.mp hM).2
      simpa using this
    · intro hlf
      exact List.mem_map.mpr ⟨L, List.mem_filter.mpr ⟨hL, by rw [hlf]; rfl⟩, rfl⟩

/-- Witness: a concrete run discharging every hypothesis of the C3
theorem. -/
theorem c3_reference_link_uniqueness_witness :
    ((splitJsLines (updateReferenceLinks "# C\n\n[Unreleased]: old\n[v1.2.3]: old\n"
        ["v1.2.3", "1.2.3"] "T" "[Unreleased]: U").changelog.data).filter
      unreleasedLinkPred).length = 1 :=
  (c3_reference_link_uniqueness "# C\n\n[Unreleased]: old\n[v1.2.3]: old\n"
    ["v1.2.3", "1.2.3"] "T" "[Unreleased]: U"
    (by decide) (by decide) (by decide) (by decide) (by decide) (by decide)
    (by decide) (by decide) (by decide) (by decide)).1

/-- C3 counterexample: a promote pass over a document carrying two
Unreleased link lines returns a document with two lines starting with the
Unreleased link label, refuting the claimed unconditional uniqueness (the
per-line loop rewrites every matching line in place and never collapses
duplicates). -/
theorem c3_counterexample :
    (republishChangelog "1.2.3"
      "## [Unreleased]\n\n- x\n\n---\n[Unreleased]: a\n[Unreleased]: b\n"
      "2026-01-02" "").toOption.map
      (fun out => ((splitJsLines out.data).filter
        (fun ln => listStarts ln "[Unreleased]: ".data)).length) = some 2 := rfl

/- ### C4, C5: promotion no-op and failure conditions -/

/-- C4: promotion is a no-op — the returned document equals the input
document unchanged — whenever the target version already has a heading in
the document and the Unreleased body trims to nothing. -/
theorem c4_promotion_idempotent (version changelog date repoUrl norm : String)
    (blk : BlockParts)
    (hv : validateAndNormalizeSemver version = Except.ok norm)
    (hb : findUnreleasedBlock changelog.data = some blk)
    (hex : (findExistingVersionHeading changelog.data norm.data).isSome = true)
    (hws : jsTrimList blk.content = []) :
    republishChangelog version changelog date repoUrl = Except.ok changelog := by
  unfold republishChangelog
  rw [hv, hb]
  simp [hex, hws]

/-- Witness: a concrete no-op run discharging every hypothesis of the C4
theorem. -/
theorem c4_promotion_idempotent_witness :
    republishChangelog "1.0.0"
      "# Changelog\n\n## [Unreleased]\n\n## [v1.0.0] - 2024-01-01\n\n- Initial release\n"
      "2024-01-15" "https://github.com/owner/repo"
      = Except.ok
      "# Changelog\n\n## [Unreleased]\n\n## [v1.0.0] - 2024-01-01\n\n- Initial release\n" :=
  c4_promotion_idempotent "1.0.0" _ "2024-01-15" _ "1.0.0"
    ⟨"# Changelog\n\n".data, "## [Unreleased]\n".data, "\n".data,
      "## [v1.0.0] - 2024-01-01\n\n- Initial release\n".data⟩
    rfl rfl rfl rfl

/-- C5: `republishChangelog` fails exactly when the version is not valid
semver, the document has no Unreleased block, or the Unreleased body trims
to nothing while no heading for the target version exists; in every other
situation — the repository URL plays no part in the condition — it returns
a document. -/
theorem c5_republish_error_iff (version changelog date repoUrl : String) :
    (∃ e, republishChangelog version changelog date repoUrl = Except.error e) ↔
    (isValidSemver version = false
      ∨ (isValidSemver version = true ∧ findUnreleasedBlock changelog.data = none)
      ∨ (isValidSemver version = true
          ∧ ∃ blk, findUnreleasedBlock changelog.data = some blk
            ∧ jsTrimList blk.content = []
            ∧ findExistingVersionHeading changelog.data
                (stripLeadV version).data = none)) := by
  unfold republishChangelog validateAndNormalizeSemver
  cases hval : isValidSemver version with
  | false => simp
  | true =>
    simp only [if_true, if_pos]
    cases hb : findUnreleasedBlock changelog.data with
    | none => simp
    | some blk =>
      cases hex : findExistingVersionHeading changelog.data (stripLeadV version).data with
      | some L =>
        by_cases hws : jsTrimList blk.content = []
        · simp [hws]
        · simp [hws]
      | none =>
        by_cases hws : jsTrimList blk.content = []
        · simp [hws]
        · simp [hws]

/- ### C8: extraction trichotomy -/

/-- C8: for a valid version, extraction returns the release notes — the
tag header plus the trimmed matched heading and body — when a version block
with a nonempty trimmed body exists; it fails with a message naming both
sought bracket labels when no block matches, and with a different message
naming the tag when a block matches but its body trims to nothing; the two
error messages always differ. -/
theorem c8_extract_changelog_errors (version changelog norm : String)
    (hv : validateAndNormalizeSemver version = Except.ok norm) :
    (findBlock (junkGo (versionHeadTail ['v' :: norm.data, norm.data])) changelog.data
        = none →
      extractChangelog version changelog = Except.error
        ("No [v" ++ norm ++ "] or [" ++ norm ++ "] section found in CHANGELOG.md"))
    ∧ (∀ blk, findBlock (junkGo (versionHeadTail ['v' :: norm.data, norm.data]))
        changelog.data = some blk →
      jsTrimList blk.content = [] →
      extractChangelog version changelog = Except.error
        ("No changelog entry found for "
          ++ (if version.data.head? == some 'v' then version else "v" ++ norm)))
    ∧ (∀ blk, findBlock (junkGo (versionHeadTail ['v' :: norm.data, norm.data]))
        changelog.data = some blk →
      ¬ jsTrimList blk.content = [] →
      extractChangelog version changelog = Except.ok
        ("# Release " ++ (if version.data.head? == some 'v' then version else "v" ++ norm)
          ++ "\n\n" ++ (⟨jsTrimList (blk.hdr ++ blk.content)⟩ : String)))
    ∧ ("No [v" ++ norm ++ "] or [" ++ norm ++ "] section found in CHANGELOG.md")
        ≠ ("No changelog entry found for "
            ++ (if version.data.head? == some 'v' then version else "v" ++ norm)) := by
  refine ⟨?_, ?_, ?_, ?_⟩
  · intro h
    simp [extractChangelog, hv, h]
  · intro blk h hws
    simp [extractChangelog, hv, h, hws]
  · intro blk h hws
    simp [extractChangelog, hv, h, List.isEmpty_iff, hws]
  · intro h
    have h2 : ("No [v" ++ norm ++ "] or [" ++ norm
        ++ "] section found in CHANGELOG.md").data[3]?
        = ("No changelog entry found for "
            ++ (if version.data.head? == some 'v' then version
                else "v" ++ norm)).data[3]? := by rw [h]
    have h3 : (some '[' : Option Char) = some 'c' := h2
    exact absurd h3 (by decide)

/-- Witness: the claim's own scenario — extracting 1.0.0 from a document
whose only heading is for v0.9.0 — discharging the C8 hypotheses. -/
theorem c8_extract_changelog_errors_witness :
    extractChangelog "1.0.0" "# Changelog\n\n## [v0.9.0] - 2023-12-01\n\n- Old\n"
      = Except.error "No [v1.0.0] or [1.0.0] section found in CHANGELOG.md" :=
  (c8_extract_changelog_errors "1.0.0"
    "# Changelog\n\n## [v0.9.0] - 2023-12-01\n\n- Old\n" "1.0.0" rfl).1 rfl

theorem findSubIdx_isSome (cs pat : List Char) :
    (findSubIdx cs pat).isSome = containsSub cs pat := by
  induction cs with
  | nil =>
    by_cases h : listStarts [] pat = true <;> simp [findSubIdx, containsSub, h]
  | cons c t ih =>
    by_cases h : listStarts (c :: t) pat = true <;>
      simp [findSubIdx, containsSub, h, ih]

/- ### C10: case sensitivity of the two Unreleased locators -/

/-- C10: the populator replaces an Unreleased body exactly when the
document contains the verbatim text of the bracketed heading (its locator
index is populated exactly when the substring occurs); on a document whose
heading differs only in case it finds nothing and instead inserts a fresh
section at the first blank-line boundary, leaving two Unreleased-style
sections — while the promoter's block matcher accepts the lower-case and
the bracketless headings. -/
theorem c10_unreleased_locator_mismatch (changelog : String) :
    ((findSubIdx changelog.data "## [Unreleased]".data).isSome
      = containsSub changelog.data "## [Unreleased]".data)
    ∧ (populateUpdateDoc "# H\n\n## [unreleased]\n\n- old\n" "X"
        = "# H\n\n## [Unreleased]\n\nX\n\n## [unreleased]\n\n- old\n")
    ∧ (findSubIdx "# H\n\n## [unreleased]\n\n- old\n".data "## [Unreleased]".data = none)
    ∧ ((findUnreleasedBlock "# H\n\n## [unreleased]\n\n- old\n".data).map BlockParts.hdr
        = some "## [unreleased]\n".data)
    ∧ ((findUnreleasedBlock "## Unreleased\nbody\n".data).map BlockParts.hdr
        = some "## Unreleased\n".data) :=
  ⟨findSubIdx_isSome changelog.data "## [Unreleased]".data, rfl, rfl, rfl, rfl⟩

/- ### C2 groundwork: appending, trimming and scanning lemmas -/

theorem takeLenAppend (a : List Char) : ∀ (b : List Char) (n : Nat),
    (a ++ b).take (a.length + n) = a ++ b.take n := by
  induction a with
  | nil => intro b n; simp
  | cons c t ih =>
    intro b n
    show (c :: (t ++ b)).take (t.length + 1 + n) = c :: (t ++ b.take n)
    rw [Nat.add_right_comm, List.take_succ_cons, ih]

theorem dropWhile_append_left {p : Char → Bool} (l1 l2 : List Char)
    (h : l1.dropWhile p ≠ []) :
    (l1 ++ l2).dropWhile p = l1.dropWhile p ++ l2 := by
  induction l1 with
  | nil => exact absurd rfl h
  | cons c t ih =>
    by_cases hc : p c = true
    · rw [List.cons_append, List.dropWhile_cons_of_pos hc,
        List.dropWhile_cons_of_pos hc]
      exact ih (by rwa [List.dropWhile_cons_of_pos hc] at h)
    · have hc' : p c = false := by simpa using hc
      rw [List.cons_append, List.dropWhile_cons_of_neg (by simp [hc']),
        List.dropWhile_cons_of_neg (by simp [hc'])]
      rfl

theorem jsTrimR_append (a b : List Char) (h : jsTrimR b ≠ []) :
    jsTrimR (a ++ b) = a ++ jsTrimR b := by
  have h' : b.reverse.dropWhile isJsWs ≠ [] := by
    intro hh
    exact h (by simp [jsTrimR, hh])
  simp [jsTrimR, List.reverse_append, dropWhile_append_left _ _ h',
    List.reverse_reverse]

theorem junkGo_hit (f : List Char → Option (List Char)) (c : Char) (t : List Char)
    (h1 : listStarts (c :: t) "##".data = true) (r : List Char)
    (h2 : f t.tail = some r) :
    junkGo f (c :: t) = some r := by
  rw [junkGo.eq_def]
  simp [h1, h2]

theorem findHeadGo_append (f : List Char → Option (List Char)) (P : List Char) :
    ∀ (X : List Char) (b : Bool),
    (∀ i, i < P.length → f (P.drop i ++ X) = none) →
    findHeadGo f b (P ++ X)
      = (findHeadGo f (P.foldl (fun _ c => isLineTerm c) b) X).map
          (fun nr => (P.length + nr.1, nr.2)) := by
  induction P with
  | nil =>
    intro X b h
    cases hr : findHeadGo f b X with
    | none => simp [hr]
    | some nr => simp [hr]
  | cons c t ih =>
    intro X b h
    have h0 : (if b then f (c :: (t ++ X)) else none) = none := by
      cases b
      · rfl
      · simpa using h 0 (by simp)
    show ((if b then f (c :: (t ++ X)) else none).elim
        ((findHeadGo f (isLineTerm c) (t ++ X)).map (fun nr => (nr.1 + 1, nr.2)))
        (fun rest => some (0, rest))) = _
    rw [h0]
    show (findHeadGo f (isLineTerm c) (t ++ X)).map (fun nr => (nr.1 + 1, nr.2)) = _
    rw [ih X (isLineTerm c) (fun i hi => by simpa using h (i + 1) (by simpa using hi))]
    rw [show List.foldl (fun _ c => isLineTerm c) b (c :: t)
        = List.foldl (fun _ c => isLineTerm c) (isLineTerm c) t from rfl]
    cases hr : findHeadGo f (List.foldl (fun _ c => isLineTerm c) (isLineTerm c) t) X with
    | none => rfl
    | some nr =>
      show some (t.length + nr.1 + 1, nr.2) = some (t.length + 1 + nr.1, nr.2)
      have h5 : t.length + nr.1 + 1 = t.length + 1 + nr.1 := by omega
      rw [h5]

/- ### C2: the promote-then-extract round trip on the canonical document
with an arbitrary injected date. `c2D2raw` spells the promoted document in
the exact association the source produces; `c2D2` is its right-associated
form; `c2E` is the document after link reconciliation. -/

def c2D2 (date : String) : List Char :=
  "# Changelog\n\n## [Unreleased]\n\n## [1.2.3] - ".data
    ++ (date.data ++ "\n\n### Added\n- add X\n\n".data)

def c2D2raw (date : String) : List Char :=
  "# Changelog\n\n".data ++ "## [Unreleased]\n".data ++ '\n'
    :: (('#' :: '#' :: ' ' :: '[' :: "1.2.3".data ++ "] - ".data ++ date.data)
      ++ '\n' :: '\n' :: jsTrimList "\n### Added\n- add X\n".data ++ ['\n'])
    ++ '\n' :: ([] : List Char)

theorem c2D2raw_eq (date : String) : c2D2raw date = c2D2 date := by
  unfold c2D2raw c2D2
  simp only [List.append_assoc, List.cons_append]
  rfl

set_option maxHeartbeats 2000000 in
theorem c2_push (date : String) :
    republishChangelog "1.2.3" "# Changelog\n\n## [Unreleased]\n\n### Added\n- add X\n"
        date ""
      = Except.ok (updateReferenceLinks ⟨c2D2raw date⟩ ["v1.2.3", "1.2.3"] ""
          "[Unreleased]: ").changelog := rfl

def c2R : List Char := "\n\n### Added\n- add X\n\n\n[Unreleased]: \n[v1.2.3]: \n[1.2.3]: ".data

def c2R1 : List Char := "\n### Added\n- add X\n\n\n[Unreleased]: \n[v1.2.3]: \n[1.2.3]: ".data

def c2Pre : List Char := "# Changelog\n\n## [Unreleased]\n\n".data

def c2X (date : String) : List Char := "## [1.2.3] - ".data ++ (date.data ++ c2R)

def c2E (date : String) : List Char := c2Pre ++ c2X date

def c2L2 : List (List Char) := ['v' :: "1.2.3".data, "1.2.3".data]

theorem updateReferenceLinks_changelog (c : String) (vl : List String) (t u : String) :
    (updateReferenceLinks c vl t u).changelog
      = ⟨joinLines ((splitJsLines c.data).map
          (mapRefLine (dedupKeep (vl.map String.data)) t.data u.data)
        ++ (if (splitJsLines c.data).any unreleasedLinkPred then [] else [u.data])
        ++ ((dedupKeep (vl.map String.data)).filter
            (fun M => !(labelFound (dedupKeep (vl.map String.data))
              (splitJsLines c.data) M))).map
            (fun M => labelLine M t.data))⟩ := rfl

theorem c2_split_D2 (date : String)
    (hd : ∀ c ∈ date.data, ¬ c = '\n' ∧ ¬ c = '\r') :
    splitJsLines (c2D2 date)
      = ["# Changelog".data, [], "## [Unreleased]".data, [],
         "## [1.2.3] - ".data ++ date.data, [], "### Added".data, "- add X".data,
         [], []] := by
  have hc : ∀ c ∈ "## [1.2.3] - ".data ++ date.data, ¬ c = '\n' ∧ ¬ c = '\r' := by
    intro c hc
    rcases List.mem_append.mp hc with h | h
    · have hall : ∀ c ∈ "## [1.2.3] - ".data, ¬ c = '\n' ∧ ¬ c = '\r' := by decide
      exact hall c h
    · exact hd c h
  have h5 : splitJsLines (("## [1.2.3] - ".data ++ date.data)
        ++ '\n' :: "\n### Added\n- add X\n\n".data)
      = ("## [1.2.3] - ".data ++ date.data)
        :: splitJsLines "\n### Added\n- add X\n\n".data :=
    splitJsLines_clean_append _ _ hc
  have hstep : splitJsLines (c2D2 date)
      = "# Changelog".data :: [] :: "## [Unreleased]".data :: []
        :: splitJsLines (("## [1.2.3] - ".data ++ date.data)
          ++ '\n' :: "\n### Added\n- add X\n\n".data) := rfl
  rw [hstep, h5]
  rfl

theorem c2_links (date : String)
    (hd : ∀ c ∈ date.data, ¬ c = '\n' ∧ ¬ c = '\r') :
    (updateReferenceLinks ⟨c2D2 date⟩ ["v1.2.3", "1.2.3"] "" "[Unreleased]: ").changelog
      = ⟨c2E date⟩ := by
  rw [updateReferenceLinks_changelog]
  rw [show (String.mk (c2D2 date)).data = c2D2 date from rfl]
  rw [c2_split_D2 date hd]
  rfl

theorem c2_republish (date : String)
    (hd : ∀ c ∈ date.data, ¬ c = '\n' ∧ ¬ c = '\r') :
    republishChangelog "1.2.3" "# Changelog\n\n## [Unreleased]\n\n### Added\n- add X\n"
        date "" = Except.ok ⟨c2E date⟩ := by
  rw [c2_push date, show (⟨c2D2raw date⟩ : String) = ⟨c2D2 date⟩
    from congrArg String.mk (c2D2raw_eq date), c2_links date hd]

def c2T : List Char :=
  "\n### Added\n- add X\n\n\n[Unreleased]: \n[v1.2.3]: \n[1.2.3]:".data

def c2H (date : String) : List Char :=
  "## [1.2.3] - ".data ++ (date.data ++ ['\n'])

def c2notes (date : String) : String :=
  ⟨"# Release v1.2.3\n\n".data ++ (c2H date ++ c2T)⟩

theorem c2_vht (date : String)
    (hd : ∀ c ∈ date.data, ¬ c = '\n' ∧ ¬ c = '\r') :
    versionHeadTail c2L2 (" [1.2.3] - ".data ++ (date.data ++ c2R)) = some c2R1 := by
  have hdrop : (" - ".data ++ (date.data ++ c2R)).dropWhile (fun c => !(c = '\n'))
      = '\n' :: c2R1 := by
    show ((date.data ++ ('\n' :: c2R1)).dropWhile (fun c => !(c = '\n'))) = '\n' :: c2R1
    exact dropWhile_append_stop (fun c hc => by simp [(hd c hc).1])
      (fun c hc => by
        rw [show ('\n' :: c2R1).head? = some '\n' from rfl] at hc
        injection hc with h
        subst h
        simp)
  show (if ((" - ".data ++ (date.data ++ c2R)).dropWhile
        (fun c => !(c = '\n'))).head? = some '\n' then
      some ((" - ".data ++ (date.data ++ c2R)).dropWhile (fun c => !(c = '\n'))).tail
    else none) = some c2R1
  rw [hdrop]
  rfl

theorem c2_tryX (date : String)
    (hd : ∀ c ∈ date.data, ¬ c = '\n' ∧ ¬ c = '\r') :
    junkGo (versionHeadTail c2L2) (c2X date) = some c2R1 := by
  show junkGo (versionHeadTail c2L2)
    ('#' :: ("# [1.2.3] - ".data ++ (date.data ++ c2R))) = some c2R1
  exact junkGo_hit _ '#' ("# [1.2.3] - ".data ++ (date.data ++ c2R)) (by rfl)
    c2R1 (c2_vht date hd)

theorem c2_findX (date : String)
    (hd : ∀ c ∈ date.data, ¬ c = '\n' ∧ ¬ c = '\r') :
    findHeadGo (junkGo (versionHeadTail c2L2)) true (c2X date) = some (0, c2R1) := by
  have hstep : findHeadGo (junkGo (versionHeadTail c2L2)) true (c2X date)
      = (junkGo (versionHeadTail c2L2) (c2X date)).elim
          ((findHeadGo (junkGo (versionHeadTail c2L2)) (isLineTerm '#')
            ("# [1.2.3] - ".data ++ (date.data ++ c2R))).map
              (fun nr => (nr.1 + 1, nr.2)))
          (fun rest => some (0, rest)) := rfl
  rw [hstep, c2_tryX date hd]
  rfl

theorem c2_fail (date : String) :
    ∀ i, i < c2Pre.length →
      junkGo (versionHeadTail c2L2) (c2Pre.drop i ++ c2X date) = none := by
  intro i hi
  have hi' : i < 30 := hi
  interval_cases i <;> rfl

theorem c2_find (date : String)
    (hd : ∀ c ∈ date.data, ¬ c = '\n' ∧ ¬ c = '\r') :
    findHeadGo (junkGo (versionHeadTail c2L2)) true (c2E date) = some (30, c2R1) := by
  show findHeadGo (junkGo (versionHeadTail c2L2)) true (c2Pre ++ c2X date)
    = some (30, c2R1)
  rw [findHeadGo_append (junkGo (versionHeadTail c2L2)) c2Pre (c2X date) true
    (c2_fail date)]
  rw [show c2Pre.foldl (fun _ c => isLineTerm c) true = true from rfl]
  rw [c2_findX date hd]
  rfl

theorem c2_findblock (date : String)
    (hd : ∀ c ∈ date.data, ¬ c = '\n' ∧ ¬ c = '\r') :
    findBlock (junkGo (versionHeadTail c2L2)) (c2E date)
      = some ⟨c2Pre, c2H date, c2R1, []⟩ := by
  have hlen : (c2E date).length - 30 - c2R1.length
      = "## [1.2.3] - ".data.length + (date.data.length + 1) := by
    rw [show (c2E date).length
        = (c2Pre ++ ("## [1.2.3] - ".data ++ (date.data ++ c2R))).length from rfl]
    rw [List.length_append, List.length_append, List.length_append]
    rw [show c2Pre.length = 30 from rfl, show c2R.length = 57 from rfl,
      show c2R1.length = 56 from rfl, show ("## [1.2.3] - ".data).length = 13 from rfl]
    omega
  have htake : (c2X date).take ("## [1.2.3] - ".data.length + (date.data.length + 1))
      = c2H date := by
    unfold c2X c2H
    rw [takeLenAppend]
    congr 1
    rw [takeLenAppend]
    rfl
  have hsome : findBlock (junkGo (versionHeadTail c2L2)) (c2E date)
      = some { before := (c2E date).take 30,
               hdr := ((c2E date).drop 30).take ((c2E date).length - 30 - c2R1.length),
               content := (contentSplitGo true c2R1).1,
               after := (contentSplitGo true c2R1).2 } := by
    unfold findBlock
    rw [c2_find date hd]
  rw [hsome]
  rw [show (c2E date).drop 30 = c2X date from rfl, hlen, htake]
  rfl

theorem c2_extract (date : String)
    (hd : ∀ c ∈ date.data, ¬ c = '\n' ∧ ¬ c = '\r') :
    extractChangelog "1.2.3" ⟨c2E date⟩ = Except.ok (c2notes date) := by
  have h1 : jsTrimR c2R1 = c2T := rfl
  have h2 : jsTrimR (c2H date ++ c2R1) = c2H date ++ jsTrimR c2R1 :=
    jsTrimR_append _ _ (by
      rw [h1]
      intro hh
      exact absurd (congrArg List.length hh) (by decide))
  have htrim : jsTrimList (c2H date ++ c2R1) = c2H date ++ c2T := by
    show jsTrimR (jsTrimL (c2H date ++ c2R1)) = c2H date ++ c2T
    rw [show jsTrimL (c2H date ++ c2R1) = c2H date ++ c2R1 from rfl]
    rw [h2, h1]
  have hpush : extractChangelog "1.2.3" ⟨c2E date⟩
      = (findBlock (junkGo (versionHeadTail c2L2)) (c2E date)).elim
          (Except.error ("No [v" ++ "1.2.3" ++ "] or [" ++ "1.2.3"
            ++ "] section found in CHANGELOG.md"))
          (fun blk =>
            if (jsTrimList blk.content).isEmpty then
              Except.error ("No changelog entry found for " ++ ("v" ++ "1.2.3"))
            else
              Except.ok ("# Release " ++ ("v" ++ "1.2.3") ++ "\n\n" ++
                (⟨jsTrimList (blk.hdr ++ blk.content)⟩ : String))) := rfl
  rw [hpush, c2_findblock date hd]
  show (if (jsTrimList c2R1).isEmpty then
      Except.error ("No changelog entry found for " ++ ("v" ++ "1.2.3"))
    else Except.ok ("# Release " ++ ("v" ++ "1.2.3") ++ "\n\n" ++
      (⟨jsTrimList (c2H date ++ c2R1)⟩ : String))) = Except.ok (c2notes date)
  rw [show (jsTrimList c2R1).isEmpty = false from rfl, if_neg Bool.false_ne_true]
  rw [htrim]
  rfl

/-- C2 (amended): promoting version 1.2.3 onto the canonical document whose
Unreleased section holds one Added change line, with any injected date free
of line breaks, and then extracting 1.2.3, succeeds and returns text that
contains that same change line and the heading for the bare label
(two hashes, bracketed 1.2.3, a dash and the date).  The original claim's
v-prefixed heading is wrong here: with no prior version heading and a
v-less input the promoter writes the bare bracket label, which the
extractor then finds under its second label alternative. -/
theorem c2_promote_extract_roundtrip (date : String)
    (hd : ∀ c ∈ date.data, ¬ c = '\n' ∧ ¬ c = '\r') :
    ∃ out notes,
      republishChangelog "1.2.3"
          "# Changelog\n\n## [Unreleased]\n\n### Added\n- add X\n" date ""
        = Except.ok out
      ∧ extractChangelog "1.2.3" out = Except.ok notes
      ∧ strContains out ("## [1.2.3] - " ++ date) = true
      ∧ strContains notes "- add X" = true
      ∧ strContains notes ("## [1.2.3] - " ++ date) = true := by
  refine ⟨⟨c2E date⟩, c2notes date, c2_republish date hd, c2_extract date hd,
    ?_, ?_, ?_⟩
  · show containsSub (c2Pre ++ ("## [1.2.3] - ".data ++ (date.data ++ c2R)))
      ("## [1.2.3] - ".data ++ date.data) = true
    rw [show "## [1.2.3] - ".data ++ (date.data ++ c2R)
        = ("## [1.2.3] - ".data ++ date.data) ++ c2R from
      (List.append_assoc _ _ _).symm]
    exact containsSub_middle _ _ _
  · show containsSub ("# Release v1.2.3\n\n".data ++ (c2H date ++
        ("\n### Added\n".data ++ ("- add X".data
          ++ "\n\n\n[Unreleased]: \n[v1.2.3]: \n[1.2.3]:".data))))
      "- add X".data = true
    rw [← List.append_assoc (c2H date) "\n### Added\n".data _,
        ← List.append_assoc "# Release v1.2.3\n\n".data
          (c2H date ++ "\n### Added\n".data) _]
    exact containsSub_middle _ _ _
  · show containsSub ("# Release v1.2.3\n\n".data ++
        (("## [1.2.3] - ".data ++ (date.data ++ ['\n'])) ++ c2T))
      ("## [1.2.3] - ".data ++ date.data) = true
    rw [List.append_assoc "## [1.2.3] - ".data (date.data ++ ['\n']) c2T,
        List.append_assoc date.data ['\n'] c2T,
        ← List.append_assoc "## [1.2.3] - ".data date.data (['\n'] ++ c2T)]
    exact containsSub_middle _ _ _

/-- Witness: the round trip at the concrete date, discharging the C2
theorem's hypothesis. -/
theorem c2_roundtrip_witness :
    ∃ out notes,
      republishChangelog "1.2.3"
          "# Changelog\n\n## [Unreleased]\n\n### Added\n- add X\n" "2026-01-02" ""
        = Except.ok out
      ∧ extractChangelog "1.2.3" out = Except.ok notes
      ∧ strContains out ("## [1.2.3] - " ++ "2026-01-02") = true
      ∧ strContains notes "- add X" = true
      ∧ strContains notes ("## [1.2.3] - " ++ "2026-01-02") = true :=
  c2_promote_extract_roundtrip "2026-01-02" (by decide)

set_option maxRecDepth 20000 in
set_option maxHeartbeats 2000000 in
/-- C2 counterexample: the promoted-then-extracted text of the claim's own
scenario contains the change line but not the claimed v-prefixed heading
label. -/
theorem c2_counterexample :
    ((republishChangelog "1.2.3"
        "# Changelog\n\n## [Unreleased]\n\n### Added\n- add X\n"
        "2026-01-02" "").toOption.bind
      (fun d1 => (extractChangelog "1.2.3" d1).toOption)).map
      (fun r => (strContains r "- add X", strContains r "## [v1.2.3]"))
      = some (true, false) := rfl
